import Mathlib

/-!
Verification of the recurring-transaction occurrence generator of the
cash.coach personal-finance tracker (`server/storage.ts`).

Dates are modelled at day granularity, as the design document prescribes
("all comparisons are at day granularity"): a calendar date is a `Nat`
counting days since 1970-01-01 (the JavaScript epoch).  Under this model
`Date.getDay()` becomes `(n + 4) % 7` (1970-01-01 was a Thursday),
`setDate(getDate() + k)` becomes `n + k`, `isSameDay` becomes equality and
`getDaysDifference` (ceiling of the millisecond difference over a day)
becomes the absolute difference.

The `while` loops of the source are embedded with an explicit fuel
parameter, invoked with enough fuel for every terminating execution of the
source; termination claims are settled by fuel-stabilisation lemmas.
-/

namespace CashCoach

/-- Leap-year test of the proleptic Gregorian calendar (as implemented by the
JavaScript `Date` object used throughout `storage.ts`). -/
def isLeap (y : Nat) : Bool :=
  (y % 4 == 0 && y % 100 != 0) || y % 400 == 0

/-- Length of month `m` (0-based, January = 0) of year `y`; the source obtains
this value as `new Date(year, month + 1, 0).getDate()`. -/
def daysInMonth (y m : Nat) : Nat :=
  if m = 1 then (if isLeap y then 29 else 28)
  else if m = 3 ∨ m = 5 ∨ m = 8 ∨ m = 10 then 30
  else 31

/-- Number of days of year `y`. -/
def daysInYear (y : Nat) : Nat := if isLeap y then 366 else 365

/-- Days from the first of January of year `y` to the first of month `m`
(0-based) of the same year. -/
def daysBeforeMonth (y : Nat) : Nat → Nat
  | 0 => 0
  | m + 1 => daysBeforeMonth y m + daysInMonth y m

/-- Days from 1970-01-01 to the first of January of year `y` (0 for years
at or before 1970; the model only uses years from 1970 on). -/
def daysBeforeYear : Nat → Nat
  | 0 => 0
  | y + 1 => if y + 1 ≤ 1970 then 0 else daysBeforeYear y + daysInYear y

/-- Day index of the civil date year `y`, month `m` (0-based, `m < 12`),
day-of-month `d` (1-based).  Values of `d` beyond the month length roll over
into the following months exactly as JavaScript's `new Date(y, m, d)` does,
because the encoding is linear in `d`. -/
def fromCivil (y m d : Nat) : Nat :=
  daysBeforeYear y + daysBeforeMonth y m + (d - 1)

/-- `fromCivil` after normalising a month index that may be `≥ 12`
(JavaScript carries the excess into the year). -/
def fromCivilN (y m d : Nat) : Nat :=
  fromCivil (y + m / 12) (m % 12) d

/-- Year-finding loop of the day-index → civil conversion: starting from
year `y`, subtract whole years while they fit. `fuel` bounds the number of
iterations; `n + 1` iterations always suffice. -/
def toCivilYear : Nat → Nat → Nat → Nat × Nat
  | 0, y, n => (y, n)
  | fuel + 1, y, n =>
      if n < daysInYear y then (y, n)
      else toCivilYear fuel (y + 1) (n - daysInYear y)

/-- Month-finding loop of the day-index → civil conversion within year `y`. -/
def toCivilMonth : Nat → Nat → Nat → Nat → Nat × Nat
  | 0, _, m, r => (m, r)
  | fuel + 1, y, m, r =>
      if r < daysInMonth y m then (m, r)
      else toCivilMonth fuel y (m + 1) (r - daysInMonth y m)

/-- Civil form (year, 0-based month, 1-based day) of a day index. -/
def toCivil (n : Nat) : Nat × Nat × Nat :=
  let p := toCivilYear (n + 1) 1970 n
  let q := toCivilMonth 12 p.1 0 p.2
  (p.1, q.1, q.2 + 1)

/-- `Date.getFullYear()`. -/
def getFullYear (n : Nat) : Nat := (toCivil n).1

/-- `Date.getMonth()` (0-based). -/
def getMonth (n : Nat) : Nat := (toCivil n).2.1

/-- `Date.getDate()` (1-based day of month). -/
def getDate (n : Nat) : Nat := (toCivil n).2.2

/-- `Date.getDay()`: 0 = Sunday … 6 = Saturday; 1970-01-01 was a Thursday. -/
def getDay (n : Nat) : Nat := (n + 4) % 7

/-- Linear month index `12·year + month`, used to compare calendar months. -/
def monthIdx (n : Nat) : Nat := 12 * getFullYear n + getMonth n

/-- `current.setMonth(current.getMonth() + 1)`: move one month forward
keeping the day-of-month, with JavaScript's overflow behaviour (a
day-of-month beyond the target month's length rolls into the next month,
e.g. Jan 31 → "Feb 31" = Mar 2 or Mar 3). -/
def jsAddMonth (n : Nat) : Nat :=
  fromCivilN (getFullYear n) (getMonth n + 1) (getDate n)

/-- `current.setMonth(current.getMonth() + 1); current.setDate(1)` — the
advance step of `MemStorage.getMonthlyDates`'s loop: first add a month with
overflow, then snap to the first of the resulting month. -/
def jsAddMonthFirst (n : Nat) : Nat :=
  let t := jsAddMonth n
  fromCivil (getFullYear t) (getMonth t) 1

/-! ### Elementary facts about the calendar kernel -/

theorem daysInMonth_pos (y m : Nat) : 0 < daysInMonth y m := by
  unfold daysInMonth
  split
  · split <;> omega
  · split <;> omega

theorem daysInMonth_le (y m : Nat) : daysInMonth y m ≤ 31 := by
  unfold daysInMonth
  split
  · split <;> omega
  · split <;> omega

theorem daysInYear_pos (y : Nat) : 0 < daysInYear y := by
  unfold daysInYear; split <;> omega

theorem daysInYear_ge (y : Nat) : 365 ≤ daysInYear y := by
  unfold daysInYear; split <;> omega

theorem daysBeforeMonth_twelve (y : Nat) : daysBeforeMonth y 12 = daysInYear y := by
  show daysBeforeMonth y 12 = daysInYear y
  simp only [daysBeforeMonth, daysInMonth, daysInYear]
  rcases h : isLeap y <;> simp [h]

theorem daysBeforeMonth_mono {y : Nat} {m₁ m₂ : Nat} (h : m₁ ≤ m₂) :
    daysBeforeMonth y m₁ ≤ daysBeforeMonth y m₂ := by
  induction m₂ with
  | zero =>
      have hm : m₁ = 0 := by omega
      subst hm; exact Nat.le_refl _
  | succ m ih =>
      rcases Nat.lt_or_ge m₁ (m + 1) with h' | h'
      · have h2 := ih (by omega)
        have h3 := daysInMonth_pos y m
        calc daysBeforeMonth y m₁ ≤ daysBeforeMonth y m := h2
          _ ≤ daysBeforeMonth y (m + 1) := by
              simp only [daysBeforeMonth]; omega
      · have hm : m₁ = m + 1 := by omega
        subst hm; exact Nat.le_refl _

theorem daysBeforeMonth_lt_year {y m : Nat} (h : m < 12) :
    daysBeforeMonth y m + daysInMonth y m ≤ daysInYear y := by
  have h1 : daysBeforeMonth y m + daysInMonth y m = daysBeforeMonth y (m + 1) := rfl
  rw [h1, ← daysBeforeMonth_twelve y]
  exact daysBeforeMonth_mono (by omega)

theorem daysBeforeYear_succ {y : Nat} (h : 1970 ≤ y) :
    daysBeforeYear (y + 1) = daysBeforeYear y + daysInYear y := by
  show (if y + 1 ≤ 1970 then 0 else daysBeforeYear y + daysInYear y)
      = daysBeforeYear y + daysInYear y
  rw [if_neg (by omega)]

theorem daysBeforeYear_1970 : daysBeforeYear 1970 = 0 := by
  show (if 1969 + 1 ≤ 1970 then 0 else daysBeforeYear 1969 + daysInYear 1969) = 0
  rw [if_pos (by omega)]

/-- A civil triple the conversions round-trip on: a year from 1970 on, a
0-based month below 12, a 1-based day within the month. -/
def validCivil (y m d : Nat) : Prop :=
  1970 ≤ y ∧ m < 12 ∧ 1 ≤ d ∧ d ≤ daysInMonth y m

/-- Day index of the first day of the month with linear index `M`
(`M = 12·year + month`). -/
def firstOfMonth (M : Nat) : Nat := fromCivil (M / 12) (M % 12) 1

theorem firstOfMonth_succ {M : Nat} (h : 1970 * 12 ≤ M) :
    firstOfMonth (M + 1) = firstOfMonth M + daysInMonth (M / 12) (M % 12) := by
  have hy : 1970 ≤ M / 12 := by omega
  rcases Nat.lt_or_ge (M % 12) 11 with hm | hm
  · have h1 : (M + 1) / 12 = M / 12 := by omega
    have h2 : (M + 1) % 12 = M % 12 + 1 := by omega
    simp only [firstOfMonth, h1, h2, fromCivil, daysBeforeMonth]
    omega
  · have hm' : M % 12 = 11 := by omega
    have h1 : (M + 1) / 12 = M / 12 + 1 := by omega
    have h2 : (M + 1) % 12 = 0 := by omega
    simp only [firstOfMonth, h1, h2, fromCivil, hm']
    rw [daysBeforeYear_succ hy]
    have h3 : daysBeforeMonth (M / 12) 11 + daysInMonth (M / 12) 11
        = daysBeforeMonth (M / 12) 12 := rfl
    have h4 := daysBeforeMonth_twelve (M / 12)
    have h5 : daysBeforeMonth (M / 12 + 1) 0 = 0 := rfl
    omega

theorem firstOfMonth_mono {M M' : Nat} (hM : 1970 * 12 ≤ M) (h : M ≤ M') :
    firstOfMonth M ≤ firstOfMonth M' := by
  induction M' with
  | zero => omega
  | succ N ih =>
      rcases Nat.lt_or_ge M (N + 1) with h' | h'
      · have h2 := ih (by omega)
        rw [firstOfMonth_succ (by omega)]
        omega
      · have : M = N + 1 := by omega
        subst this; exact Nat.le_refl _

theorem firstOfMonth_strict {M M' : Nat} (hM : 1970 * 12 ≤ M) (h : M < M') :
    firstOfMonth M + daysInMonth (M / 12) (M % 12) ≤ firstOfMonth M' := by
  have h1 := firstOfMonth_succ hM
  have h2 := firstOfMonth_mono (M := M + 1) (by omega) h
  omega

theorem fromCivil_eq_firstOfMonth {y m d : Nat} (hm : m < 12) :
    fromCivil y m d = firstOfMonth (12 * y + m) + (d - 1) := by
  have h1 : (12 * y + m) / 12 = y := by omega
  have h2 : (12 * y + m) % 12 = m := by omega
  simp [firstOfMonth, h1, h2, fromCivil]

/-- `fromCivil` respects the lexicographic order of valid civil triples. -/
theorem fromCivil_lt_fromCivil {y m d y' m' d' : Nat}
    (hv : validCivil y m d) (hv' : validCivil y' m' d')
    (h : 12 * y + m < 12 * y' + m' ∨ (y = y' ∧ m = m' ∧ d < d')) :
    fromCivil y m d < fromCivil y' m' d' := by
  obtain ⟨hy, hm, hd1, hd2⟩ := hv
  obtain ⟨hy', hm', hd1', hd2'⟩ := hv'
  rw [fromCivil_eq_firstOfMonth hm, fromCivil_eq_firstOfMonth hm']
  rcases h with h | ⟨h1, h2, h3⟩
  · have hstr := @firstOfMonth_strict (12 * y + m) (12 * y' + m') (by omega) h
    have he1 : (12 * y + m) / 12 = y := by omega
    have he2 : (12 * y + m) % 12 = m := by omega
    rw [he1, he2] at hstr
    omega
  · subst h1; subst h2; omega

theorem fromCivil_injective {y m d y' m' d' : Nat}
    (hv : validCivil y m d) (hv' : validCivil y' m' d')
    (h : fromCivil y m d = fromCivil y' m' d') : y = y' ∧ m = m' ∧ d = d' := by
  have hb : m < 12 := hv.2.1
  have hb' : m' < 12 := hv'.2.1
  rcases Nat.lt_trichotomy (12 * y + m) (12 * y' + m') with hlt | heq | hgt
  · have := fromCivil_lt_fromCivil hv hv' (Or.inl hlt); omega
  · have hy : y = y' := by omega
    have hm : m = m' := by omega
    refine ⟨hy, hm, ?_⟩
    rcases Nat.lt_trichotomy d d' with hd | hd | hd
    · have := fromCivil_lt_fromCivil hv hv' (Or.inr ⟨hy, hm, hd⟩); omega
    · exact hd
    · have := fromCivil_lt_fromCivil hv' hv (Or.inr ⟨hy.symm, hm.symm, hd⟩); omega
  · have := fromCivil_lt_fromCivil hv' hv (Or.inl hgt); omega

theorem toCivilYear_spec :
    ∀ (fuel y n : Nat), 1970 ≤ y → n < 365 * fuel →
      1970 ≤ (toCivilYear fuel y n).1 ∧ y ≤ (toCivilYear fuel y n).1 ∧
      (toCivilYear fuel y n).2 < daysInYear (toCivilYear fuel y n).1 ∧
      daysBeforeYear (toCivilYear fuel y n).1 + (toCivilYear fuel y n).2
        = daysBeforeYear y + n := by
  intro fuel
  induction fuel with
  | zero => intro y n _ hn; omega
  | succ f ih =>
      intro y n hy hn
      simp only [toCivilYear]
      by_cases hcase : n < daysInYear y
      · simp only [if_pos hcase]
        exact ⟨hy, Nat.le_refl _, hcase, trivial⟩
      · simp only [if_neg hcase]
        have hge := daysInYear_ge y
        have h1 := ih (y + 1) (n - daysInYear y) (by omega) (by omega)
        have h2 := daysBeforeYear_succ hy
        refine ⟨h1.1, by omega, h1.2.2.1, ?_⟩
        omega

theorem toCivilMonth_spec :
    ∀ (fuel y m r : Nat),
      r + daysBeforeMonth y m < daysBeforeMonth y (m + fuel) →
      m ≤ (toCivilMonth fuel y m r).1 ∧ (toCivilMonth fuel y m r).1 < m + fuel ∧
      (toCivilMonth fuel y m r).2 < daysInMonth y (toCivilMonth fuel y m r).1 ∧
      daysBeforeMonth y (toCivilMonth fuel y m r).1 + (toCivilMonth fuel y m r).2
        = daysBeforeMonth y m + r := by
  intro fuel
  induction fuel with
  | zero => intro y m r hr; simp only [Nat.add_zero] at hr; omega
  | succ f ih =>
      intro y m r hr
      simp only [toCivilMonth]
      by_cases hcase : r < daysInMonth y m
      · simp only [if_pos hcase]
        exact ⟨Nat.le_refl _, by omega, hcase, trivial⟩
      · simp only [if_neg hcase]
        have hstep : daysBeforeMonth y (m + 1) = daysBeforeMonth y m + daysInMonth y m := rfl
        have hidx : m + 1 + f = m + (f + 1) := by omega
        have h1 := ih y (m + 1) (r - daysInMonth y m) (by rw [hstep, hidx]; omega)
        rw [hstep] at h1
        refine ⟨by omega, by omega, h1.2.2.1, by omega⟩

/-- Correctness of `toCivil`: the conversion produces a valid civil triple
that `fromCivil` maps back to the input day index. -/
theorem toCivil_spec (n : Nat) :
    validCivil (getFullYear n) (getMonth n) (getDate n) ∧
    fromCivil (getFullYear n) (getMonth n) (getDate n) = n := by
  have h1 := toCivilYear_spec (n + 1) 1970 n (Nat.le_refl _) (by omega)
  have hy0 : daysBeforeYear 1970 = 0 := daysBeforeYear_1970
  have hr : (toCivilYear (n + 1) 1970 n).2
      + daysBeforeMonth (toCivilYear (n + 1) 1970 n).1 0
      < daysBeforeMonth (toCivilYear (n + 1) 1970 n).1 (0 + 12) := by
    have hz : daysBeforeMonth (toCivilYear (n + 1) 1970 n).1 0 = 0 := rfl
    have h12 := daysBeforeMonth_twelve (toCivilYear (n + 1) 1970 n).1
    simp only [Nat.zero_add]
    omega
  have h2 := toCivilMonth_spec 12 (toCivilYear (n + 1) 1970 n).1 0
    (toCivilYear (n + 1) 1970 n).2 hr
  have hz : daysBeforeMonth (toCivilYear (n + 1) 1970 n).1 0 = 0 := rfl
  have hgy : getFullYear n = (toCivilYear (n + 1) 1970 n).1 := rfl
  have hgm : getMonth n
      = (toCivilMonth 12 (toCivilYear (n + 1) 1970 n).1 0 (toCivilYear (n + 1) 1970 n).2).1 :=
    rfl
  have hgd : getDate n
      = (toCivilMonth 12 (toCivilYear (n + 1) 1970 n).1 0 (toCivilYear (n + 1) 1970 n).2).2
        + 1 := rfl
  rw [hgy, hgm, hgd]
  constructor
  · exact ⟨h1.1, by omega, by omega, by omega⟩
  · simp only [fromCivil]
    omega

theorem validCivil_day (n : Nat) :
    1970 ≤ getFullYear n ∧ getMonth n < 12 ∧ 1 ≤ getDate n ∧
    getDate n ≤ daysInMonth (getFullYear n) (getMonth n) :=
  (toCivil_spec n).1

/-- Decomposition of a day index into the first of its month plus the
day-of-month offset. -/
theorem day_decomp (n : Nat) :
    n = firstOfMonth (monthIdx n) + (getDate n - 1) := by
  have h := toCivil_spec n
  have hm : getMonth n < 12 := h.1.2.1
  calc n = fromCivil (getFullYear n) (getMonth n) (getDate n) := h.2.symm
    _ = firstOfMonth (12 * getFullYear n + getMonth n) + (getDate n - 1) :=
        fromCivil_eq_firstOfMonth hm
    _ = firstOfMonth (monthIdx n) + (getDate n - 1) := rfl

theorem monthIdx_ge (n : Nat) : 1970 * 12 ≤ monthIdx n := by
  have h := validCivil_day n
  simp only [monthIdx]
  omega

/-- Round trip in the other direction: converting a valid civil triple to a
day index and back returns the same triple. -/
theorem toCivil_fromCivil {y m d : Nat} (hv : validCivil y m d) :
    getFullYear (fromCivil y m d) = y ∧ getMonth (fromCivil y m d) = m ∧
    getDate (fromCivil y m d) = d := by
  have h := toCivil_spec (fromCivil y m d)
  exact fromCivil_injective h.1 hv h.2

theorem monthIdx_fromCivil {y m d : Nat} (hv : validCivil y m d) :
    monthIdx (fromCivil y m d) = 12 * y + m := by
  have h := toCivil_fromCivil hv
  simp [monthIdx, h.1, h.2.1]

theorem getDate_fromCivil {y m d : Nat} (hv : validCivil y m d) :
    getDate (fromCivil y m d) = d := (toCivil_fromCivil hv).2.2

/-- The first of a month as a `fromCivil` value is in the valid range. -/
theorem validCivil_first {M : Nat} (h : 1970 * 12 ≤ M) :
    validCivil (M / 12) (M % 12) 1 :=
  ⟨by omega, by omega, Nat.le_refl _, daysInMonth_pos _ _⟩

theorem monthIdx_firstOfMonth {M : Nat} (h : 1970 * 12 ≤ M) :
    monthIdx (firstOfMonth M) = M := by
  have h1 := monthIdx_fromCivil (validCivil_first h)
  show monthIdx (fromCivil (M / 12) (M % 12) 1) = M
  rw [h1]; omega

theorem getDate_firstOfMonth {M : Nat} (h : 1970 * 12 ≤ M) :
    getDate (firstOfMonth M) = 1 :=
  getDate_fromCivil (validCivil_first h)

/-- Position of a day index relative to the first of a month, in terms of
month indices. -/
theorem firstOfMonth_le_iff {M n : Nat} (h : 1970 * 12 ≤ M) :
    firstOfMonth M ≤ n ↔ M ≤ monthIdx n := by
  constructor
  · intro hle
    by_contra hcon
    push_neg at hcon
    have hd := day_decomp n
    have hval := validCivil_day n
    have hstr := firstOfMonth_strict (M := monthIdx n) (monthIdx_ge n) hcon
    have e1 : monthIdx n / 12 = getFullYear n := by
      simp only [monthIdx]; omega
    have e2 : monthIdx n % 12 = getMonth n := by
      simp only [monthIdx]; omega
    have hmon : getDate n - 1 < daysInMonth (monthIdx n / 12) (monthIdx n % 12) := by
      rw [e1, e2]; omega
    omega
  · intro hle
    have hd := day_decomp n
    have := firstOfMonth_mono (M := M) h hle
    omega

theorem monthIdx_parts (n : Nat) :
    monthIdx n / 12 = getFullYear n ∧ monthIdx n % 12 = getMonth n := by
  have h := validCivil_day n
  simp only [monthIdx]
  omega

theorem lt_firstOfMonth_succ (n : Nat) : n < firstOfMonth (monthIdx n + 1) := by
  have hd := day_decomp n
  have hv := validCivil_day n
  have hp := monthIdx_parts n
  have hs := firstOfMonth_succ (M := monthIdx n) (monthIdx_ge n)
  rw [hp.1, hp.2] at hs
  omega

theorem monthIdx_mono {a b : Nat} (h : a ≤ b) : monthIdx a ≤ monthIdx b := by
  by_contra hcon
  push_neg at hcon
  have h1 := lt_firstOfMonth_succ b
  have h2 := firstOfMonth_mono (M := monthIdx b + 1) (by have := monthIdx_ge b; omega)
    (by omega : monthIdx b + 1 ≤ monthIdx a)
  have h3 := day_decomp a
  omega

/-- Normal form of `setMonth(getMonth() + 1)`: the first of the next month
plus the original day-of-month offset (which may overflow into the month
after the next). -/
theorem jsAddMonth_eq (n : Nat) :
    jsAddMonth n = firstOfMonth (monthIdx n + 1) + (getDate n - 1) := by
  have hv := validCivil_day n
  have hm : (getMonth n + 1) % 12 < 12 := by omega
  have hidx : 12 * (getFullYear n + (getMonth n + 1) / 12) + (getMonth n + 1) % 12
      = 12 * getFullYear n + getMonth n + 1 := by omega
  show fromCivil (getFullYear n + (getMonth n + 1) / 12) ((getMonth n + 1) % 12)
      (getDate n) = _
  rw [fromCivil_eq_firstOfMonth hm, hidx]
  rfl

theorem jsAddMonth_lt (n : Nat) : n < jsAddMonth n := by
  rw [jsAddMonth_eq]
  have := lt_firstOfMonth_succ n
  omega

theorem monthIdx_jsAddMonth_ge (n : Nat) : monthIdx n + 1 ≤ monthIdx (jsAddMonth n) := by
  have h1 := jsAddMonth_eq n
  have h2 : firstOfMonth (monthIdx n + 1) ≤ jsAddMonth n := by omega
  exact (firstOfMonth_le_iff (by have := monthIdx_ge n; omega)).mp h2

theorem jsAddMonthFirst_eq (n : Nat) :
    jsAddMonthFirst n = firstOfMonth (monthIdx (jsAddMonth n)) := by
  have hv := validCivil_day (jsAddMonth n)
  show fromCivil (getFullYear (jsAddMonth n)) (getMonth (jsAddMonth n)) 1 = _
  rw [fromCivil_eq_firstOfMonth hv.2.1]
  rfl

theorem jsAddMonthFirst_gt (n : Nat) : n < jsAddMonthFirst n := by
  rw [jsAddMonthFirst_eq]
  have h1 := lt_firstOfMonth_succ n
  have h2 := firstOfMonth_mono (M := monthIdx n + 1)
    (by have := monthIdx_ge n; omega) (monthIdx_jsAddMonth_ge n)
  omega

theorem jsAddMonth_firstOfMonth {M : Nat} (h : 1970 * 12 ≤ M) :
    jsAddMonth (firstOfMonth M) = firstOfMonth (M + 1) := by
  rw [jsAddMonth_eq, monthIdx_firstOfMonth h, getDate_firstOfMonth h]
  omega

theorem jsAddMonthFirst_firstOfMonth {M : Nat} (h : 1970 * 12 ≤ M) :
    jsAddMonthFirst (firstOfMonth M) = firstOfMonth (M + 1) := by
  rw [jsAddMonthFirst_eq, jsAddMonth_firstOfMonth h,
    monthIdx_firstOfMonth (by omega : 1970 * 12 ≤ M + 1)]

/-! ### The calendar helpers of `MemStorage` and `DatabaseStorage`

Each `while` loop is embedded as a recursion on an explicit `fuel`
parameter; the wrapper passes fuel that exactly covers every terminating
run of the source loop (the loop variable strictly increases and never
passes `ub` by more than one step). -/

/-- Loop of `MemStorage.getWeeklyDates` (storage.ts 401–414): scan day by
day while `current <= endDate`, keeping days whose day-of-week matches
`dayOfWeek` and that are strictly after `startDate`. -/
def memWeeklyAux (lb ub dow : Nat) : Nat → Nat → List Nat
  | 0, _ => []
  | fuel + 1, cur =>
      if cur ≤ ub then
        (if getDay cur = dow ∧ lb < cur then [cur] else [])
          ++ memWeeklyAux lb ub dow fuel (cur + 1)
      else []

/-- `MemStorage.getWeeklyDates(startDate, endDate, dayOfWeek)`. -/
def memGetWeeklyDates (lb ub dow : Nat) : List Nat :=
  memWeeklyAux lb ub dow (ub + 1 - lb) lb

/-- Day-of-week alignment loop of `DatabaseStorage.getWeeklyDates`
(storage.ts 787–789): `while (currentDate.getDay() !== targetDayOfWeek)`
advance one day.  The source loop diverges when the target is outside
`[0,6]`; seven units of fuel cover every terminating run. -/
def dbAlignAux (target : Nat) : Nat → Nat → Nat
  | 0, cur => cur
  | fuel + 1, cur =>
      if getDay cur = target then cur else dbAlignAux target fuel (cur + 1)

/-- Emission loop of `DatabaseStorage.getWeeklyDates` (storage.ts 797–800):
push `currentDate` and step by 7 while `currentDate <= endDate`. -/
def dbWeeklyAux (ub : Nat) : Nat → Nat → List Nat
  | 0, _ => []
  | fuel + 1, cur =>
      if cur ≤ ub then cur :: dbWeeklyAux ub fuel (cur + 7) else []

/-- `DatabaseStorage.getWeeklyDates(startDate, endDate, dayOfWeek?)`:
target day defaults to the start date's own day-of-week when the parameter
is `null`/`undefined`; after alignment, a dead guard advances a week if the
cursor moved before the start (it cannot). -/
def dbGetWeeklyDates (lb ub : Nat) (dayOfWeek : Option Nat) : List Nat :=
  let target := match dayOfWeek with
    | some d => d
    | none => getDay lb
  let cur := dbAlignAux target 7 lb
  let cur := if cur < lb then cur + 7 else cur
  dbWeeklyAux ub (ub + 1 - cur) cur

/-- Stepping loop shared by `MemStorage.getCustomDates` (storage.ts
441–456) and the identical `DatabaseStorage.getCustomDates` (832–846):
push `current` and add `days` while `current <= endDate`.  The source
diverges for `days = 0` (the cursor never advances); the fuel covers every
run with `days ≥ 1`. -/
def customDatesAux (ub step : Nat) : Nat → Nat → List Nat
  | 0, _ => []
  | fuel + 1, cur =>
      if cur ≤ ub then cur :: customDatesAux ub step fuel (cur + step) else []

/-- `MemStorage.getCustomDates(startDate, endDate, days)`: first candidate
is `startDate + days`. -/
def memGetCustomDates (lb ub step : Nat) : List Nat :=
  customDatesAux ub step (ub + 1 - (lb + step)) (lb + step)

/-- `DatabaseStorage.getCustomDates(startDate, endDate, days)` — its body
is textually identical to the `MemStorage` version. -/
def dbGetCustomDates (lb ub step : Nat) : List Nat :=
  customDatesAux ub step (ub + 1 - (lb + step)) (lb + step)

/-- Loop of `MemStorage.getMonthlyDates` (storage.ts 423–436): for the
cursor's month, clamp the anchor day to the month length, push the clamped
date when it lies strictly after `startDate` and at or before `endDate`,
then advance with `setMonth(getMonth() + 1); setDate(1)`. -/
def memMonthlyAux (lb ub dayOfMonth : Nat) : Nat → Nat → List Nat
  | 0, _ => []
  | fuel + 1, cur =>
      if cur ≤ ub then
        (let targetDay := min dayOfMonth (daysInMonth (getFullYear cur) (getMonth cur))
         let targetDate := fromCivil (getFullYear cur) (getMonth cur) targetDay
         if targetDate > lb ∧ targetDate ≤ ub then [targetDate] else [])
          ++ memMonthlyAux lb ub dayOfMonth fuel (jsAddMonthFirst cur)
      else []

/-- `MemStorage.getMonthlyDates(startDate, endDate, dayOfMonth)`: the
cursor starts at `startDate` moved one month forward *keeping its
day-of-month* (storage.ts 421), which overflows past short months. -/
def memGetMonthlyDates (lb ub dayOfMonth : Nat) : List Nat :=
  memMonthlyAux lb ub dayOfMonth (ub + 1 - jsAddMonth lb) (jsAddMonth lb)

/-- Loop of `DatabaseStorage.getMonthlyDates` (storage.ts 815–827): same
clamping, but the cursor is always the first of a month. -/
def dbMonthlyAux (lb ub dayOfMonth : Nat) : Nat → Nat → List Nat
  | 0, _ => []
  | fuel + 1, cur =>
      if cur ≤ ub then
        (let actualDay := min dayOfMonth (daysInMonth (getFullYear cur) (getMonth cur))
         let occurrenceDate := fromCivil (getFullYear cur) (getMonth cur) actualDay
         if occurrenceDate ≤ ub ∧ occurrenceDate > lb then [occurrenceDate] else [])
          ++ dbMonthlyAux lb ub dayOfMonth fuel (jsAddMonth cur)
      else []

/-- `DatabaseStorage.getMonthlyDates(startDate, endDate, dayOfMonth)`: the
cursor starts at the first of the start date's month, advanced one month
when that first is before the start date. -/
def dbGetMonthlyDates (lb ub dayOfMonth : Nat) : List Nat :=
  let start := fromCivil (getFullYear lb) (getMonth lb) 1
  let cur := if start < lb then jsAddMonth start else start
  dbMonthlyAux lb ub dayOfMonth (ub + 1 - cur) cur

/-! ### The recurrence rules, transactions and the two processors -/

/-- The four values of the `frequency` column. -/
inductive Freq
  | daily | weekly | monthly | custom
deriving DecidableEq, Repr

/-- A row of the `recurring_transactions` table (shared/schema.ts), at the
fields the recurrence engine reads and writes. -/
structure Rule where
  id : Nat
  userId : Nat
  description : String
  amount : Int
  categoryId : Option Nat
  currency : String
  notes : Option String
  isIncome : Nat
  frequency : Freq
  startDate : Nat
  endDate : Option Nat
  dayOfWeek : Option Nat
  dayOfMonth : Option Nat
  customDays : Option Nat
  lastGeneratedDate : Option Nat
  isActive : Bool
deriving DecidableEq, Repr

/-- A transaction row, at the fields the recurrence engine writes. -/
structure Txn where
  userId : Nat
  description : String
  amount : Int
  date : Nat
  categoryId : Option Nat
  currency : String
  notes : Option String
  isIncome : Nat
deriving DecidableEq, Repr

/-- JavaScript `x || d` on a nullable number: `null`, `undefined` and `0`
are falsy. -/
def jsOr (x : Option Nat) (d : Nat) : Nat :=
  match x with
  | none => d
  | some v => if v = 0 then d else v

/-- JavaScript truthiness of a nullable number (`if (rt.customDays)`). -/
def jsTruthy (x : Option Nat) : Bool :=
  match x with
  | none => false
  | some v => decide (v ≠ 0)

/-- `getDaysDifference` (storage.ts 396–399 and 773–776): ceiling of the
absolute time difference in days — exact absolute difference at day
granularity. -/
def getDaysDifference (a b : Nat) : Nat := max a b - min a b

/-- `Math.max(...dates)` over a non-empty list of day indices. -/
def listMax (l : List Nat) : Nat := l.foldl Nat.max 0

/-- The `lastGenDate` local of both processors: the watermark, or the
start date when no occurrence was ever generated. -/
def lastGen (rt : Rule) : Nat := rt.lastGeneratedDate.getD rt.startDate

/-- The `datesToProcess` local of
`MemStorage.processRecurringTransactions` (storage.ts 335–356): frequency
dispatch.  Note `rt.dayOfWeek || 1` and `rt.dayOfMonth || 1`: a `null` *or
zero* anchor falls back to 1. -/
def memDatesToProcess (now : Nat) (rt : Rule) : List Nat :=
  match rt.frequency with
  | .daily => memGetCustomDates (lastGen rt) now 1
  | .weekly => memGetWeeklyDates (lastGen rt) now (jsOr rt.dayOfWeek 1)
  | .monthly => memGetMonthlyDates (lastGen rt) now (jsOr rt.dayOfMonth 1)
  | .custom =>
      if jsTruthy rt.customDays then
        memGetCustomDates (lastGen rt) now (rt.customDays.getD 0)
      else []

/-- The `validDates` local (storage.ts 359–362): keep dates at or before
`now` and, when an end date is set, at or before it. -/
def memValidDates (now : Nat) (rt : Rule) : List Nat :=
  (memDatesToProcess now rt).filter fun d =>
    decide (d ≤ now) && (match rt.endDate with
      | none => true
      | some e => decide (d ≤ e))

/-- One iteration of the rule loop of
`MemStorage.processRecurringTransactions` (storage.ts 331–384): the
transactions created for the rule and the rule as left in the store. -/
def memProcessRule (now : Nat) (rt : Rule) : List Txn × Rule :=
  if !rt.isActive then ([], rt)
  else if memValidDates now rt = [] then ([], rt)
  else
    ((memValidDates now rt).map fun d =>
      { userId := rt.userId, description := rt.description,
        amount := rt.amount, date := d, categoryId := rt.categoryId,
        currency := rt.currency, notes := rt.notes,
        isIncome := if rt.isIncome ≠ 0 then 1 else 0 },
     { rt with lastGeneratedDate := some (listMax (memValidDates now rt)) })

/-- `MemStorage.processRecurringTransactions` over the rule store: created
transactions (its return value is their count) and the updated store. -/
def memProcessAll (now : Nat) : List Rule → List Txn × List Rule
  | [] => ([], [])
  | r :: rs =>
      let p := memProcessRule now r
      let q := memProcessAll now rs
      (p.1 ++ q.1, p.2 :: q.2)

/-- The `nextDates` local of
`DatabaseStorage.processRecurringTransactions` (storage.ts 694–729) before
the end-date filter; the `continue` guards of the `switch` become the empty
list.  Note the contrasts with `MemStorage`: daily yields only `[now]`, the
weekly and custom arms are guarded by `getDaysDifference`, the monthly arm
is guarded by a same-calendar-month check, and the monthly anchor default
is the watermark's own day-of-month (`dayOfMonth || lastGenDate.getDate()`). -/
def dbNextDatesRaw (now : Nat) (rt : Rule) : List Nat :=
  match rt.frequency with
  | .daily =>
      -- `if (this.isSameDay(lastGenDate, currentDate)) continue;`
      -- `nextDates = [currentDate];`
      if lastGen rt = now then [] else [now]
  | .weekly =>
      if getDaysDifference (lastGen rt) now < 7 then []
      else dbGetWeeklyDates (lastGen rt) now rt.dayOfWeek
  | .monthly =>
      if getMonth (lastGen rt) = getMonth now ∧
          getFullYear (lastGen rt) = getFullYear now then []
      else dbGetMonthlyDates (lastGen rt) now (jsOr rt.dayOfMonth (getDate (lastGen rt)))
  | .custom =>
      if !jsTruthy rt.customDays then []
      else if getDaysDifference (lastGen rt) now < rt.customDays.getD 0 then []
      else dbGetCustomDates (lastGen rt) now (rt.customDays.getD 0)

/-- `nextDates` after the end-date filter (storage.ts 732–734). -/
def dbNextDates (now : Nat) (rt : Rule) : List Nat :=
  match rt.endDate with
  | none => dbNextDatesRaw now rt
  | some e => (dbNextDatesRaw now rt).filter (fun d => decide (d ≤ e))

/-- One iteration of the rule loop of
`DatabaseStorage.processRecurringTransactions` (storage.ts 691–759) on an
active rule. -/
def dbProcessRule (now : Nat) (rt : Rule) : List Txn × Rule :=
  let txns := (dbNextDates now rt).map fun d =>
    { userId := rt.userId, description := rt.description, amount := rt.amount,
      date := d, categoryId := rt.categoryId, currency := rt.currency,
      notes := some (match rt.notes with
        | some s => s ++ " (Recurring)"
        | none => "(Recurring)"),
      isIncome := rt.isIncome }
  if dbNextDates now rt = [] then ([], rt)
  else (txns, { rt with lastGeneratedDate := some (listMax (dbNextDates now rt)) })

/-- `DatabaseStorage.processRecurringTransactions`: the query loads only
rows with `isActive = true`; inactive rows are untouched. -/
def dbProcessAll (now : Nat) : List Rule → List Txn × List Rule
  | [] => ([], [])
  | r :: rs =>
      let p := if r.isActive then dbProcessRule now r else ([], r)
      let q := dbProcessAll now rs
      (p.1 ++ q.1, p.2 :: q.2)

/-- The argument record of `createRecurringTransaction`
(`InsertRecurringTransaction`: the schema insert type omits `id`,
`lastGeneratedDate` and `createdAt`; `isActive` is an optional defaulted
column, and a spread-in `lastGeneratedDate`/`isActive` property would in
any case be overridden by the literal keys written after the spread). -/
structure InsertRecurring where
  userId : Nat
  description : String
  amount : Int
  categoryId : Option Nat
  currency : Option String
  notes : Option String
  isIncome : Option Nat
  frequency : Freq
  startDate : Option Nat
  endDate : Option Nat
  dayOfWeek : Option Nat
  dayOfMonth : Option Nat
  customDays : Option Nat
  isActive : Option Bool
  lastGeneratedDate : Option Nat
deriving DecidableEq, Repr

/-- `MemStorage.createRecurringTransaction` (storage.ts 292–312): the keys
written after the object spread (`isActive: true`, `startDate: … || now`,
`lastGeneratedDate: null`, the `?? null` defaults) win over any spread-in
values.  A `Date` object is always truthy, so `startDate || now` falls back
to `now` exactly when `startDate` is absent. -/
def memCreateRecurringTransaction (nextId now : Nat) (ins : InsertRecurring) : Rule :=
  { id := nextId
    userId := ins.userId
    description := ins.description
    amount := ins.amount
    isActive := true
    startDate := ins.startDate.getD now
    lastGeneratedDate := none
    categoryId := ins.categoryId
    currency := ins.currency.getD "USD"
    notes := ins.notes
    isIncome := ins.isIncome.getD 0
    endDate := ins.endDate
    dayOfWeek := ins.dayOfWeek
    dayOfMonth := ins.dayOfMonth
    customDays := ins.customDays
    frequency := ins.frequency }

/-! ### Characterization of the weekly generators -/

theorem memWeeklyAux_sound {lb ub dow : Nat} :
    ∀ fuel cur x, x ∈ memWeeklyAux lb ub dow fuel cur →
      cur ≤ x ∧ x ≤ ub ∧ getDay x = dow ∧ lb < x := by
  intro fuel
  induction fuel with
  | zero => intro cur x hx; simp [memWeeklyAux] at hx
  | succ f ih =>
      intro cur x hx
      simp only [memWeeklyAux] at hx
      by_cases hc : cur ≤ ub
      · rw [if_pos hc] at hx
        rcases List.mem_append.mp hx with h1 | h2
        · by_cases hp : getDay cur = dow ∧ lb < cur
          · rw [if_pos hp] at h1
            have : x = cur := by simpa using h1
            subst this
            exact ⟨Nat.le_refl _, hc, hp.1, hp.2⟩
          · rw [if_neg hp] at h1; simp at h1
        · have h3 := ih (cur + 1) x h2
          exact ⟨by omega, h3.2.1, h3.2.2.1, h3.2.2.2⟩
      · rw [if_neg hc] at hx; simp at hx

theorem memWeeklyAux_complete {lb ub dow : Nat} :
    ∀ fuel cur x, ub + 1 ≤ cur + fuel → cur ≤ x → x ≤ ub → getDay x = dow →
      lb < x → x ∈ memWeeklyAux lb ub dow fuel cur := by
  intro fuel
  induction fuel with
  | zero => intro cur x hf h1 h2 _ _; omega
  | succ f ih =>
      intro cur x hf h1 h2 hd hl
      have hc : cur ≤ ub := by omega
      simp only [memWeeklyAux, if_pos hc]
      apply List.mem_append.mpr
      rcases Nat.eq_or_lt_of_le h1 with he | hlt
      · left
        rw [← he] at hd hl
        rw [if_pos ⟨hd, hl⟩]
        simp [he]
      · right
        exact ih (cur + 1) x (by omega) (by omega) h2 hd hl

theorem memWeeklyAux_pairwise {lb ub dow : Nat} :
    ∀ fuel cur, (memWeeklyAux lb ub dow fuel cur).Pairwise (· < ·) := by
  intro fuel
  induction fuel with
  | zero => intro cur; simp [memWeeklyAux]
  | succ f ih =>
      intro cur
      simp only [memWeeklyAux]
      by_cases hc : cur ≤ ub
      · rw [if_pos hc]
        by_cases hp : getDay cur = dow ∧ lb < cur
        · rw [if_pos hp]
          simp only [List.singleton_append, List.pairwise_cons]
          refine ⟨fun x hx => ?_, ih (cur + 1)⟩
          have := memWeeklyAux_sound f (cur + 1) x hx
          omega
        · rw [if_neg hp]; simpa using ih (cur + 1)
      · rw [if_neg hc]; simp

/-- `MemStorage.getWeeklyDates` returns exactly the matching days strictly
after the lower bound and at or before the upper bound. -/
theorem memGetWeeklyDates_mem {lb ub dow x : Nat} :
    x ∈ memGetWeeklyDates lb ub dow ↔ lb < x ∧ x ≤ ub ∧ getDay x = dow := by
  constructor
  · intro hx
    have h := memWeeklyAux_sound _ _ _ hx
    exact ⟨h.2.2.2, h.2.1, h.2.2.1⟩
  · rintro ⟨h1, h2, h3⟩
    exact memWeeklyAux_complete _ lb x (by omega) (by omega) h2 h3 h1

theorem memGetWeeklyDates_pairwise (lb ub dow : Nat) :
    (memGetWeeklyDates lb ub dow).Pairwise (· < ·) :=
  memWeeklyAux_pairwise _ _

/-! ### Characterization of the custom / fixed-interval generator -/

theorem customDatesAux_sound {ub step : Nat} :
    ∀ fuel cur x, x ∈ customDatesAux ub step fuel cur →
      ∃ k, x = cur + step * k ∧ x ≤ ub := by
  intro fuel
  induction fuel with
  | zero => intro cur x hx; simp [customDatesAux] at hx
  | succ f ih =>
      intro cur x hx
      simp only [customDatesAux] at hx
      by_cases hc : cur ≤ ub
      · rw [if_pos hc] at hx
        rcases List.mem_cons.mp hx with h1 | h2
        · exact ⟨0, by omega, by omega⟩
        · obtain ⟨k, hk, hle⟩ := ih (cur + step) x h2
          refine ⟨k + 1, ?_, hle⟩
          have : step * (k + 1) = step * k + step := by ring
          omega
      · rw [if_neg hc] at hx; simp at hx

theorem customDatesAux_complete {ub step : Nat} (hs : 1 ≤ step) :
    ∀ fuel cur x k, ub + 1 ≤ cur + fuel → x = cur + step * k → x ≤ ub →
      x ∈ customDatesAux ub step fuel cur := by
  intro fuel
  induction fuel with
  | zero =>
      intro cur x k hf hx hle
      have : 0 ≤ step * k := Nat.zero_le _
      omega
  | succ f ih =>
      intro cur x k hf hx hle
      have hge : cur ≤ x := by have : 0 ≤ step * k := Nat.zero_le _; omega
      have hc : cur ≤ ub := by omega
      simp only [customDatesAux, if_pos hc]
      apply List.mem_cons.mpr
      match k with
      | 0 => left; omega
      | k + 1 =>
          right
          refine ih (cur + step) x k (by omega) ?_ hle
          have : step * (k + 1) = step * k + step := by ring
          omega

theorem customDatesAux_pairwise {ub step : Nat} (hs : 1 ≤ step) :
    ∀ fuel cur, (customDatesAux ub step fuel cur).Pairwise (· < ·) := by
  intro fuel
  induction fuel with
  | zero => intro cur; simp [customDatesAux]
  | succ f ih =>
      intro cur
      simp only [customDatesAux]
      by_cases hc : cur ≤ ub
      · rw [if_pos hc]
        refine List.pairwise_cons.mpr ⟨fun x hx => ?_, ih (cur + step)⟩
        obtain ⟨k, hk, _⟩ := customDatesAux_sound f (cur + step) x hx
        have : 0 ≤ step * k := Nat.zero_le _
        omega
      · rw [if_neg hc]; simp

theorem customDatesAux_empty {ub step cur : Nat} (h : ub < cur) :
    ∀ fuel, customDatesAux ub step fuel cur = [] := by
  intro fuel
  cases fuel with
  | zero => rfl
  | succ f => simp only [customDatesAux]; rw [if_neg (by omega)]

/-- Fuel stabilisation: with a positive step, any fuel beyond the bound
gives the same list — the source loop terminates. -/
theorem customDatesAux_stable {ub step : Nat} (hs : 1 ≤ step) :
    ∀ fuel extra cur, ub + 1 ≤ cur + fuel →
      customDatesAux ub step (fuel + extra) cur = customDatesAux ub step fuel cur := by
  intro fuel
  induction fuel with
  | zero =>
      intro extra cur hf
      rw [customDatesAux_empty (by omega), customDatesAux_empty (by omega)]
  | succ f ih =>
      intro extra cur hf
      have he : f + 1 + extra = (f + extra) + 1 := by omega
      rw [he]
      simp only [customDatesAux]
      by_cases hc : cur ≤ ub
      · rw [if_pos hc, if_pos hc, ih extra (cur + step) (by omega)]
      · rw [if_neg hc, if_neg hc]

/-- Membership in `getCustomDates`: exactly the dates
`lb + step, lb + 2·step, …` up to the bound. -/
theorem memGetCustomDates_mem {lb ub step x : Nat} (hs : 1 ≤ step) :
    x ∈ memGetCustomDates lb ub step ↔
      ∃ k, x = lb + step * (k + 1) ∧ x ≤ ub := by
  unfold memGetCustomDates
  constructor
  · intro hx
    obtain ⟨k, hk, hle⟩ := customDatesAux_sound _ _ _ hx
    refine ⟨k, ?_, hle⟩
    have : step * (k + 1) = step * k + step := by ring
    omega
  · rintro ⟨k, hk, hle⟩
    refine customDatesAux_complete hs _ (lb + step) x k (by omega) ?_ hle
    have : step * (k + 1) = step * k + step := by ring
    omega

/-- With step 1 (the daily dispatch), `getCustomDates` is exactly the
interval `(lb, ub]`. -/
theorem memGetCustomDates_one_mem {lb ub x : Nat} :
    x ∈ memGetCustomDates lb ub 1 ↔ lb < x ∧ x ≤ ub := by
  rw [memGetCustomDates_mem (Nat.le_refl 1)]
  constructor
  · rintro ⟨k, hk, hle⟩; omega
  · rintro ⟨h1, h2⟩; exact ⟨x - lb - 1, by omega, h2⟩

theorem dbGetCustomDates_eq_mem (lb ub step : Nat) :
    dbGetCustomDates lb ub step = memGetCustomDates lb ub step := rfl

/-! ### The `DatabaseStorage` weekly generator -/

theorem dbAlignAux_bounds (t : Nat) :
    ∀ fuel cur, cur ≤ dbAlignAux t fuel cur ∧ dbAlignAux t fuel cur ≤ cur + fuel := by
  intro fuel
  induction fuel with
  | zero => intro cur; simp only [dbAlignAux]; omega
  | succ f ih =>
      intro cur
      simp only [dbAlignAux]
      by_cases hc : getDay cur = t
      · rw [if_pos hc]; omega
      · rw [if_neg hc]
        have := ih (cur + 1)
        omega

theorem dbAlignAux_day (t : Nat) :
    ∀ fuel cur i, i < fuel → getDay (cur + i) = t →
      getDay (dbAlignAux t fuel cur) = t := by
  intro fuel
  induction fuel with
  | zero => intro cur i hi; omega
  | succ f ih =>
      intro cur i hi hd
      simp only [dbAlignAux]
      by_cases hc : getDay cur = t
      · rw [if_pos hc]; exact hc
      · rw [if_neg hc]
        match i with
        | 0 => simp at hd; exact absurd hd hc
        | i + 1 =>
            refine ih (cur + 1) i (by omega) ?_
            have he : cur + 1 + i = cur + (i + 1) := by omega
            rw [he]; exact hd

theorem dbAlignAux_min (t : Nat) :
    ∀ fuel cur d, cur ≤ d → d < dbAlignAux t fuel cur → getDay d ≠ t := by
  intro fuel
  induction fuel with
  | zero =>
      intro cur d h1 h2
      simp only [dbAlignAux] at h2
      omega
  | succ f ih =>
      intro cur d h1 h2
      simp only [dbAlignAux] at h2
      by_cases hc : getDay cur = t
      · rw [if_pos hc] at h2; omega
      · rw [if_neg hc] at h2
        rcases Nat.eq_or_lt_of_le h1 with he | hlt
        · subst he; exact hc
        · exact ih (cur + 1) d (by omega) h2

theorem getDay_exists (t cur : Nat) (ht : t ≤ 6) :
    ∃ i, i < 7 ∧ getDay (cur + i) = t := by
  refine ⟨(t + 7 - (cur + 4) % 7) % 7, by omega, ?_⟩
  unfold getDay
  omega

/-- Fuel stabilisation of the alignment loop for anchors in `[0,6]` — the
source's day-of-week search terminates within at most six steps. -/
theorem dbAlignAux_stable (t cur : Nat) (ht : t ≤ 6) :
    ∀ extra, dbAlignAux t (7 + extra) cur = dbAlignAux t 7 cur := by
  obtain ⟨i, hi, hd⟩ := getDay_exists t cur ht
  suffices h : ∀ fuel extra cur i, i < fuel → getDay (cur + i) = t →
      dbAlignAux t (fuel + extra) cur = dbAlignAux t fuel cur by
    intro extra; exact h 7 extra cur i hi hd
  intro fuel
  induction fuel with
  | zero => intro extra cur i hi; omega
  | succ f ih =>
      intro extra cur i hi hd
      have he : f + 1 + extra = (f + extra) + 1 := by omega
      rw [he]
      simp only [dbAlignAux]
      by_cases hc : getDay cur = t
      · rw [if_pos hc, if_pos hc]
      · rw [if_neg hc, if_neg hc]
        match i with
        | 0 => simp at hd; exact absurd hd hc
        | i + 1 =>
            refine ih extra (cur + 1) i (by omega) ?_
            have he2 : cur + 1 + i = cur + (i + 1) := by omega
            rw [he2]; exact hd

theorem dbWeeklyAux_eq_custom (ub : Nat) :
    ∀ fuel cur, dbWeeklyAux ub fuel cur = customDatesAux ub 7 fuel cur := by
  intro fuel
  induction fuel with
  | zero => intro cur; rfl
  | succ f ih =>
      intro cur
      simp only [dbWeeklyAux, customDatesAux]
      by_cases hc : cur ≤ ub
      · rw [if_pos hc, if_pos hc, ih (cur + 7)]
      · rw [if_neg hc, if_neg hc]

/-- Characterisation of `DatabaseStorage.getWeeklyDates` with an explicit
anchor in `[0,6]`: every matching day from the lower bound *inclusive* to
the upper bound inclusive. -/
theorem dbGetWeeklyDates_some_mem {lb ub t x : Nat} (ht : t ≤ 6) :
    x ∈ dbGetWeeklyDates lb ub (some t) ↔ lb ≤ x ∧ x ≤ ub ∧ getDay x = t := by
  obtain ⟨i, hi, hd⟩ := getDay_exists t lb ht
  have hday : getDay (dbAlignAux t 7 lb) = t := dbAlignAux_day t 7 lb i hi hd
  have hb := dbAlignAux_bounds t 7 lb
  have hne : ¬ (dbAlignAux t 7 lb < lb) := by omega
  show x ∈ (let c := dbAlignAux t 7 lb
            let c := if c < lb then c + 7 else c
            dbWeeklyAux ub (ub + 1 - c) c) ↔ _
  simp only [if_neg hne]
  rw [dbWeeklyAux_eq_custom]
  constructor
  · intro hx
    obtain ⟨k, hk, hle⟩ := customDatesAux_sound _ _ _ hx
    refine ⟨by omega, hle, ?_⟩
    rw [hk]
    unfold getDay at hday ⊢
    have hmod : ∀ s : Nat, (s + 7 * k + 4) % 7 = (s + 4) % 7 := fun s => by
      rw [show s + 7 * k + 4 = s + 4 + 7 * k from by ring, Nat.add_mul_mod_self_left]
    rw [hmod]
    exact hday
  · rintro ⟨h1, h2, h3⟩
    have hge : dbAlignAux t 7 lb ≤ x := by
      by_contra hcon
      push_neg at hcon
      exact absurd h3 (dbAlignAux_min t 7 lb x h1 hcon)
    have e1 : (dbAlignAux t 7 lb + 4) % 7 = t := hday
    have e2 : (x + 4) % 7 = t := h3
    have hdvd : 7 ∣ (x - dbAlignAux t 7 lb) := by omega
    have hmul := Nat.mul_div_cancel' hdvd
    have hk : x = dbAlignAux t 7 lb + 7 * ((x - dbAlignAux t 7 lb) / 7) := by omega
    exact customDatesAux_complete (by omega) _ _ x _ (by omega) hk h2

/-- The same characterisation when the anchor is `null`: the target becomes
the lower bound's own day-of-week. -/
theorem dbGetWeeklyDates_none_mem {lb ub x : Nat} :
    x ∈ dbGetWeeklyDates lb ub none ↔ lb ≤ x ∧ x ≤ ub ∧ getDay x = getDay lb := by
  have ht : getDay lb ≤ 6 := by unfold getDay; omega
  obtain ⟨i, hi, hd⟩ := getDay_exists (getDay lb) lb ht
  have hday : getDay (dbAlignAux (getDay lb) 7 lb) = getDay lb :=
    dbAlignAux_day _ 7 lb i hi hd
  have hb := dbAlignAux_bounds (getDay lb) 7 lb
  have hne : ¬ (dbAlignAux (getDay lb) 7 lb < lb) := by omega
  show x ∈ (let c := dbAlignAux (getDay lb) 7 lb
            let c := if c < lb then c + 7 else c
            dbWeeklyAux ub (ub + 1 - c) c) ↔ _
  simp only [if_neg hne]
  rw [dbWeeklyAux_eq_custom]
  constructor
  · intro hx
    obtain ⟨k, hk, hle⟩ := customDatesAux_sound _ _ _ hx
    refine ⟨by omega, hle, ?_⟩
    rw [hk]
    unfold getDay at hday ⊢
    have hmod : ∀ s : Nat, (s + 7 * k + 4) % 7 = (s + 4) % 7 := fun s => by
      rw [show s + 7 * k + 4 = s + 4 + 7 * k from by ring, Nat.add_mul_mod_self_left]
    rw [hmod]
    exact hday
  · rintro ⟨h1, h2, h3⟩
    have hge : dbAlignAux (getDay lb) 7 lb ≤ x := by
      by_contra hcon
      push_neg at hcon
      exact absurd h3 (dbAlignAux_min _ 7 lb x h1 hcon)
    have e1 : (dbAlignAux (getDay lb) 7 lb + 4) % 7 = (lb + 4) % 7 := hday
    have e2 : (x + 4) % 7 = (lb + 4) % 7 := h3
    have hdvd : 7 ∣ (x - dbAlignAux (getDay lb) 7 lb) := by omega
    have hmul := Nat.mul_div_cancel' hdvd
    have hk : x = dbAlignAux (getDay lb) 7 lb
        + 7 * ((x - dbAlignAux (getDay lb) 7 lb) / 7) := by omega
    exact customDatesAux_complete (by omega) _ _ x _ (by omega) hk h2

theorem dbGetWeeklyDates_pairwise (lb ub : Nat) (o : Option Nat) :
    (dbGetWeeklyDates lb ub o).Pairwise (· < ·) := by
  unfold dbGetWeeklyDates
  rw [dbWeeklyAux_eq_custom]
  exact customDatesAux_pairwise (by omega) _ _

/-! ### The monthly generators -/

/-- The clamped occurrence date of anchor `a` in the month with linear
index `M`: day `min a (daysInMonth …)` of that month. -/
def clampedDate (M a : Nat) : Nat :=
  firstOfMonth M + (min a (daysInMonth (M / 12) (M % 12)) - 1)

theorem clampedDate_eq (cur a : Nat) :
    fromCivil (getFullYear cur) (getMonth cur)
      (min a (daysInMonth (getFullYear cur) (getMonth cur)))
      = clampedDate (monthIdx cur) a := by
  have hp := monthIdx_parts cur
  have hv := validCivil_day cur
  rw [fromCivil_eq_firstOfMonth hv.2.1]
  simp only [clampedDate, hp.1, hp.2]
  rfl

theorem clampedDate_bounds {M : Nat} (a : Nat) (h : 1970 * 12 ≤ M) :
    firstOfMonth M ≤ clampedDate M a ∧ clampedDate M a < firstOfMonth (M + 1) := by
  have hpos := daysInMonth_pos (M / 12) (M % 12)
  have hs := firstOfMonth_succ h
  have hmin : min a (daysInMonth (M / 12) (M % 12)) ≤ daysInMonth (M / 12) (M % 12) :=
    Nat.min_le_right _ _
  simp only [clampedDate]
  omega

theorem clampedDate_fromCivil (M a : Nat) :
    clampedDate M a
      = fromCivil (M / 12) (M % 12) (min a (daysInMonth (M / 12) (M % 12))) := by
  simp only [clampedDate, firstOfMonth, fromCivil]
  omega

theorem monthIdx_clampedDate {M : Nat} (a : Nat) (h : 1970 * 12 ≤ M) :
    monthIdx (clampedDate M a) = M := by
  rcases Nat.eq_zero_or_pos (min a (daysInMonth (M / 12) (M % 12))) with hz | hp
  · have he : clampedDate M a = firstOfMonth M := by
      simp only [clampedDate, hz]
      omega
    rw [he]
    exact monthIdx_firstOfMonth h
  · rw [clampedDate_fromCivil]
    have := monthIdx_fromCivil (y := M / 12) (m := M % 12)
      ⟨by omega, by omega, hp, Nat.min_le_right _ _⟩
    rw [this]
    omega

theorem monthIdx_jsAddMonthFirst_ge (n : Nat) :
    monthIdx n + 1 ≤ monthIdx (jsAddMonthFirst n) := by
  rw [jsAddMonthFirst_eq, monthIdx_firstOfMonth (by
    have := monthIdx_ge (jsAddMonth n); omega)]
  exact monthIdx_jsAddMonth_ge n

theorem memMonthlyAux_sound {lb ub a : Nat} :
    ∀ fuel cur x, x ∈ memMonthlyAux lb ub a fuel cur →
      ∃ M, monthIdx cur ≤ M ∧ x = clampedDate M a ∧ lb < x ∧ x ≤ ub := by
  intro fuel
  induction fuel with
  | zero => intro cur x hx; simp [memMonthlyAux] at hx
  | succ f ih =>
      intro cur x hx
      simp only [memMonthlyAux] at hx
      by_cases hc : cur ≤ ub
      · rw [if_pos hc] at hx
        rcases List.mem_append.mp hx with h1 | h2
        · by_cases hp : fromCivil (getFullYear cur) (getMonth cur)
              (min a (daysInMonth (getFullYear cur) (getMonth cur))) > lb ∧
              fromCivil (getFullYear cur) (getMonth cur)
                (min a (daysInMonth (getFullYear cur) (getMonth cur))) ≤ ub
          · rw [if_pos hp] at h1
            have hxe : x = fromCivil (getFullYear cur) (getMonth cur)
                (min a (daysInMonth (getFullYear cur) (getMonth cur))) := by
              simpa using h1
            refine ⟨monthIdx cur, Nat.le_refl _, ?_, ?_, ?_⟩
            · rw [hxe, clampedDate_eq]
            · omega
            · omega
          · rw [if_neg hp] at h1; simp at h1
        · obtain ⟨M, hM, hrest⟩ := ih (jsAddMonthFirst cur) x h2
          have := monthIdx_jsAddMonthFirst_ge cur
          exact ⟨M, by omega, hrest⟩
      · rw [if_neg hc] at hx; simp at hx

theorem memMonthlyAux_pairwise {lb ub a : Nat} :
    ∀ fuel cur, (memMonthlyAux lb ub a fuel cur).Pairwise (· < ·) := by
  intro fuel
  induction fuel with
  | zero => intro cur; simp [memMonthlyAux]
  | succ f ih =>
      intro cur
      simp only [memMonthlyAux]
      by_cases hc : cur ≤ ub
      · rw [if_pos hc]
        by_cases hp : fromCivil (getFullYear cur) (getMonth cur)
            (min a (daysInMonth (getFullYear cur) (getMonth cur))) > lb ∧
            fromCivil (getFullYear cur) (getMonth cur)
              (min a (daysInMonth (getFullYear cur) (getMonth cur))) ≤ ub
        · rw [if_pos hp]
          simp only [List.singleton_append, List.pairwise_cons]
          refine ⟨fun x hx => ?_, ih (jsAddMonthFirst cur)⟩
          obtain ⟨M, hM, hxe, _, _⟩ := memMonthlyAux_sound f (jsAddMonthFirst cur) x hx
          have h1 : monthIdx cur + 1 ≤ M :=
            le_trans (monthIdx_jsAddMonthFirst_ge cur) hM
          have h2 := clampedDate_bounds a (monthIdx_ge cur)
          have h3 := clampedDate_bounds (M := M) a (by have := monthIdx_ge cur; omega)
          have h4 := firstOfMonth_mono (M := monthIdx cur + 1)
            (by have := monthIdx_ge cur; omega) h1
          rw [clampedDate_eq, hxe]
          omega
        · rw [if_neg hp]; simpa using ih (jsAddMonthFirst cur)
      · rw [if_neg hc]; simp

theorem dbMonthlyAux_sound {lb ub a : Nat} :
    ∀ fuel cur x, x ∈ dbMonthlyAux lb ub a fuel cur →
      ∃ M, monthIdx cur ≤ M ∧ x = clampedDate M a ∧ lb < x ∧ x ≤ ub := by
  intro fuel
  induction fuel with
  | zero => intro cur x hx; simp [dbMonthlyAux] at hx
  | succ f ih =>
      intro cur x hx
      simp only [dbMonthlyAux] at hx
      by_cases hc : cur ≤ ub
      · rw [if_pos hc] at hx
        rcases List.mem_append.mp hx with h1 | h2
        · by_cases hp : fromCivil (getFullYear cur) (getMonth cur)
              (min a (daysInMonth (getFullYear cur) (getMonth cur))) ≤ ub ∧
              fromCivil (getFullYear cur) (getMonth cur)
                (min a (daysInMonth (getFullYear cur) (getMonth cur))) > lb
          · rw [if_pos hp] at h1
            have hxe : x = fromCivil (getFullYear cur) (getMonth cur)
                (min a (daysInMonth (getFullYear cur) (getMonth cur))) := by
              simpa using h1
            refine ⟨monthIdx cur, Nat.le_refl _, ?_, ?_, ?_⟩
            · rw [hxe, clampedDate_eq]
            · omega
            · omega
          · rw [if_neg hp] at h1; simp at h1
        · obtain ⟨M, hM, hrest⟩ := ih (jsAddMonth cur) x h2
          have := monthIdx_jsAddMonth_ge cur
          exact ⟨M, by omega, hrest⟩
      · rw [if_neg hc] at hx; simp at hx

theorem dbMonthlyAux_complete {lb ub a : Nat} :
    ∀ fuel M M' x, 1970 * 12 ≤ M → ub + 1 ≤ firstOfMonth M + fuel →
      M ≤ M' → x = clampedDate M' a → lb < x → x ≤ ub →
      x ∈ dbMonthlyAux lb ub a fuel (firstOfMonth M) := by
  intro fuel
  induction fuel with
  | zero =>
      intro M M' x hM hf hMM hx hlb hub
      have h1 := (clampedDate_bounds a (by omega : 1970 * 12 ≤ M')).1
      have h2 := firstOfMonth_mono hM hMM
      omega
  | succ f ih =>
      intro M M' x hM hf hMM hx hlb hub
      have h1 := (clampedDate_bounds a (by omega : 1970 * 12 ≤ M')).1
      have h2 := firstOfMonth_mono hM hMM
      have hc : firstOfMonth M ≤ ub := by omega
      simp only [dbMonthlyAux, if_pos hc]
      apply List.mem_append.mpr
      rcases Nat.eq_or_lt_of_le hMM with he | hlt
      · left
        subst he
        have htarget : fromCivil (getFullYear (firstOfMonth M))
            (getMonth (firstOfMonth M))
            (min a (daysInMonth (getFullYear (firstOfMonth M))
              (getMonth (firstOfMonth M)))) = clampedDate M a := by
          rw [clampedDate_eq, monthIdx_firstOfMonth hM]
        rw [htarget]
        rw [if_pos (by omega)]
        simp [hx]
      · right
        rw [jsAddMonth_firstOfMonth hM]
        have hstep := firstOfMonth_succ hM
        have hpos := daysInMonth_pos (M / 12) (M % 12)
        exact ih (M + 1) M' x (by omega) (by omega) hlt hx hlb hub

theorem dbMonthlyAux_pairwise {lb ub a : Nat} :
    ∀ fuel cur, (dbMonthlyAux lb ub a fuel cur).Pairwise (· < ·) := by
  intro fuel
  induction fuel with
  | zero => intro cur; simp [dbMonthlyAux]
  | succ f ih =>
      intro cur
      simp only [dbMonthlyAux]
      by_cases hc : cur ≤ ub
      · rw [if_pos hc]
        by_cases hp : fromCivil (getFullYear cur) (getMonth cur)
            (min a (daysInMonth (getFullYear cur) (getMonth cur))) ≤ ub ∧
            fromCivil (getFullYear cur) (getMonth cur)
              (min a (daysInMonth (getFullYear cur) (getMonth cur))) > lb
        · rw [if_pos hp]
          simp only [List.singleton_append, List.pairwise_cons]
          refine ⟨fun x hx => ?_, ih (jsAddMonth cur)⟩
          obtain ⟨M, hM, hxe, _, _⟩ := dbMonthlyAux_sound f (jsAddMonth cur) x hx
          have h1 : monthIdx cur + 1 ≤ M :=
            le_trans (monthIdx_jsAddMonth_ge cur) hM
          have h2 := clampedDate_bounds a (monthIdx_ge cur)
          have h3 := clampedDate_bounds (M := M) a (by have := monthIdx_ge cur; omega)
          have h4 := firstOfMonth_mono (M := monthIdx cur + 1)
            (by have := monthIdx_ge cur; omega) h1
          rw [clampedDate_eq, hxe]
          omega
        · rw [if_neg hp]; simpa using ih (jsAddMonth cur)
      · rw [if_neg hc]; simp

/-- The first month index scanned by `DatabaseStorage.getMonthlyDates`:
the start date's own month when the start date is its month's first day,
the following month otherwise. -/
def dbMonthlyStartIdx (lb : Nat) : Nat :=
  if getDate lb = 1 then monthIdx lb else monthIdx lb + 1

/-- Full characterisation of `DatabaseStorage.getMonthlyDates`: exactly the
clamped anchor dates of the months from `dbMonthlyStartIdx` on that lie in
`(lb, ub]`. -/
theorem dbGetMonthlyDates_mem {lb ub a x : Nat} :
    x ∈ dbGetMonthlyDates lb ub a ↔
      ∃ M, dbMonthlyStartIdx lb ≤ M ∧ x = clampedDate M a ∧ lb < x ∧ x ≤ ub := by
  have hv := validCivil_day lb
  have hd := day_decomp lb
  have hstart : fromCivil (getFullYear lb) (getMonth lb) 1 = firstOfMonth (monthIdx lb) := by
    rw [fromCivil_eq_firstOfMonth hv.2.1]
    rfl
  have hMlb := monthIdx_ge lb
  have hcur : (if fromCivil (getFullYear lb) (getMonth lb) 1 < lb
      then jsAddMonth (fromCivil (getFullYear lb) (getMonth lb) 1)
      else fromCivil (getFullYear lb) (getMonth lb) 1)
      = firstOfMonth (dbMonthlyStartIdx lb) := by
    rw [hstart]
    by_cases h1 : getDate lb = 1
    · have hlt : ¬ (firstOfMonth (monthIdx lb) < lb) := by omega
      rw [if_neg hlt]
      simp [dbMonthlyStartIdx, h1]
    · have hlt : firstOfMonth (monthIdx lb) < lb := by omega
      rw [if_pos hlt, jsAddMonth_firstOfMonth hMlb]
      simp [dbMonthlyStartIdx, h1]
  show x ∈ dbMonthlyAux lb ub a _ _ ↔ _
  rw [hcur]
  constructor
  · intro hx
    obtain ⟨M, hM, hrest⟩ := dbMonthlyAux_sound _ _ _ hx
    rw [monthIdx_firstOfMonth (by unfold dbMonthlyStartIdx; split <;> omega)] at hM
    exact ⟨M, hM, hrest⟩
  · rintro ⟨M, hM, hx, hlb, hub⟩
    exact dbMonthlyAux_complete _ (dbMonthlyStartIdx lb) M x
      (by unfold dbMonthlyStartIdx; split <;> omega) (by omega) hM hx hlb hub

/-! ### `Math.max` over a list of dates -/

theorem foldl_max_mem : ∀ (xs : List Nat) (i : Nat), xs.foldl Nat.max i ∈ i :: xs := by
  intro xs
  induction xs with
  | nil => intro i; simp
  | cons y ys ih =>
      intro i
      simp only [List.foldl_cons]
      rcases Nat.le_total i y with h | h
      · have hm : Nat.max i y = y := Nat.max_eq_right h
        rw [hm]
        rcases List.mem_cons.mp (ih y) with h1 | h1
        · simp [h1]
        · simp [h1]
      · have hm : Nat.max i y = i := Nat.max_eq_left h
        rw [hm]
        rcases List.mem_cons.mp (ih i) with h1 | h1
        · simp [h1]
        · simp [h1]

theorem foldl_max_init_le : ∀ (xs : List Nat) (i : Nat), i ≤ xs.foldl Nat.max i := by
  intro xs
  induction xs with
  | nil => intro i; exact Nat.le_refl _
  | cons y ys ih =>
      intro i
      simp only [List.foldl_cons]
      exact le_trans (Nat.le_max_left i y) (ih (Nat.max i y))

theorem le_foldl_max : ∀ (xs : List Nat) (i x : Nat), x ∈ xs → x ≤ xs.foldl Nat.max i := by
  intro xs
  induction xs with
  | nil => intro i x hx; simp at hx
  | cons y ys ih =>
      intro i x hx
      simp only [List.foldl_cons]
      rcases List.mem_cons.mp hx with h1 | h1
      · subst h1
        exact le_trans (Nat.le_max_right i x) (foldl_max_init_le ys (Nat.max i x))
      · exact ih _ x h1

theorem listMax_le {l : List Nat} {x : Nat} (hx : x ∈ l) : x ≤ listMax l :=
  le_foldl_max l 0 x hx

theorem listMax_mem {l : List Nat} (h : l ≠ []) : listMax l ∈ l := by
  rcases List.mem_cons.mp (foldl_max_mem l 0) with h1 | h1
  · obtain ⟨x, xs, rfl⟩ : ∃ x xs, l = x :: xs := by
      match l, h with
      | x :: xs, _ => exact ⟨x, xs, rfl⟩
    have hx : x ≤ (x :: xs).foldl Nat.max 0 := le_foldl_max _ 0 x (by simp)
    have hx0 : x = 0 := by omega
    show (x :: xs).foldl Nat.max 0 ∈ x :: xs
    rw [h1, hx0]
    simp
  · exact h1

/-! ### Processor-level lemmas -/

/-- The end-date part of the processors' filters. -/
def endOk (rt : Rule) (d : Nat) : Bool :=
  match rt.endDate with
  | none => true
  | some e => decide (d ≤ e)

theorem memValidDates_eq (now : Nat) (rt : Rule) :
    memValidDates now rt
      = (memDatesToProcess now rt).filter fun d => decide (d ≤ now) && endOk rt d := rfl

theorem memValidDates_mem {now : Nat} {rt : Rule} {d : Nat} :
    d ∈ memValidDates now rt ↔
      d ∈ memDatesToProcess now rt ∧ d ≤ now ∧ endOk rt d = true := by
  rw [memValidDates_eq, List.mem_filter]
  simp [and_assoc]

theorem dbNextDates_mem {now : Nat} {rt : Rule} {d : Nat} :
    d ∈ dbNextDates now rt ↔
      d ∈ dbNextDatesRaw now rt ∧ endOk rt d = true := by
  unfold dbNextDates endOk
  match h : rt.endDate with
  | none => simp
  | some e => simp [List.mem_filter]

theorem memProcessRule_inactive {now : Nat} {rt : Rule} (h : rt.isActive = false) :
    memProcessRule now rt = ([], rt) := by
  unfold memProcessRule
  rw [h]
  rfl

theorem memProcessRule_empty {now : Nat} {rt : Rule} (h : memValidDates now rt = []) :
    memProcessRule now rt = ([], rt) := by
  unfold memProcessRule
  rcases hb : rt.isActive with _ | _
  · rfl
  · simp [h]

theorem memProcessRule_some {now : Nat} {rt : Rule} (ha : rt.isActive = true)
    (h : memValidDates now rt ≠ []) :
    memProcessRule now rt
      = ((memValidDates now rt).map fun d =>
          { userId := rt.userId, description := rt.description,
            amount := rt.amount, date := d, categoryId := rt.categoryId,
            currency := rt.currency, notes := rt.notes,
            isIncome := if rt.isIncome ≠ 0 then 1 else 0 },
         { rt with lastGeneratedDate := some (listMax (memValidDates now rt)) }) := by
  unfold memProcessRule
  simp [ha, h]

theorem map_date_proj (l : List Nat) (f : Nat → Txn) (hf : ∀ d, (f d).date = d) :
    (l.map f).map Txn.date = l := by
  rw [List.map_map]
  have hc : (Txn.date ∘ f) = id := by funext d; exact hf d
  rw [hc, List.map_id]

theorem memProcessRule_dates {now : Nat} {rt : Rule} (ha : rt.isActive = true) :
    (memProcessRule now rt).1.map Txn.date = memValidDates now rt := by
  by_cases h : memValidDates now rt = []
  · rw [memProcessRule_empty h, h]; rfl
  · rw [memProcessRule_some ha h]
    exact map_date_proj _ _ (fun d => rfl)

/-- `memProcessRule` touches no rule field other than the watermark. -/
theorem memProcessRule_pres (now : Nat) (rt : Rule) :
    (memProcessRule now rt).2.frequency = rt.frequency ∧
    (memProcessRule now rt).2.endDate = rt.endDate ∧
    (memProcessRule now rt).2.dayOfWeek = rt.dayOfWeek ∧
    (memProcessRule now rt).2.dayOfMonth = rt.dayOfMonth ∧
    (memProcessRule now rt).2.customDays = rt.customDays ∧
    (memProcessRule now rt).2.isActive = rt.isActive ∧
    (memProcessRule now rt).2.startDate = rt.startDate := by
  unfold memProcessRule
  split
  · exact ⟨rfl, rfl, rfl, rfl, rfl, rfl, rfl⟩
  · split
    · exact ⟨rfl, rfl, rfl, rfl, rfl, rfl, rfl⟩
    · exact ⟨rfl, rfl, rfl, rfl, rfl, rfl, rfl⟩

theorem dbProcessRule_empty {now : Nat} {rt : Rule} (h : dbNextDates now rt = []) :
    dbProcessRule now rt = ([], rt) := by
  unfold dbProcessRule
  simp [h]

theorem dbProcessRule_some {now : Nat} {rt : Rule} (h : dbNextDates now rt ≠ []) :
    dbProcessRule now rt
      = ((dbNextDates now rt).map fun d =>
          { userId := rt.userId, description := rt.description, amount := rt.amount,
            date := d, categoryId := rt.categoryId, currency := rt.currency,
            notes := some (match rt.notes with
              | some s => s ++ " (Recurring)"
              | none => "(Recurring)"),
            isIncome := rt.isIncome },
         { rt with lastGeneratedDate := some (listMax (dbNextDates now rt)) }) := by
  unfold dbProcessRule
  simp [h]

theorem dbProcessRule_dates (now : Nat) (rt : Rule) :
    (dbProcessRule now rt).1.map Txn.date = dbNextDates now rt := by
  by_cases h : dbNextDates now rt = []
  · rw [dbProcessRule_empty h, h]; rfl
  · rw [dbProcessRule_some h]
    exact map_date_proj _ _ (fun d => rfl)

theorem dbProcessRule_pres (now : Nat) (rt : Rule) :
    (dbProcessRule now rt).2.frequency = rt.frequency ∧
    (dbProcessRule now rt).2.endDate = rt.endDate ∧
    (dbProcessRule now rt).2.dayOfWeek = rt.dayOfWeek ∧
    (dbProcessRule now rt).2.dayOfMonth = rt.dayOfMonth ∧
    (dbProcessRule now rt).2.customDays = rt.customDays ∧
    (dbProcessRule now rt).2.isActive = rt.isActive ∧
    (dbProcessRule now rt).2.startDate = rt.startDate := by
  simp only [dbProcessRule]
  split
  · exact ⟨rfl, rfl, rfl, rfl, rfl, rfl, rfl⟩
  · exact ⟨rfl, rfl, rfl, rfl, rfl, rfl, rfl⟩

/-! ### Per-frequency views of the generated dates -/

theorem memValidDates_daily_mem {now : Nat} {rt : Rule} {d : Nat}
    (h : rt.frequency = .daily) :
    d ∈ memValidDates now rt ↔
      lastGen rt < d ∧ d ≤ now ∧ endOk rt d = true := by
  rw [memValidDates_mem]
  unfold memDatesToProcess
  rw [h]
  rw [memGetCustomDates_one_mem]
  constructor
  · rintro ⟨⟨h1, h2⟩, h3, h4⟩; exact ⟨h1, h3, h4⟩
  · rintro ⟨h1, h2, h3⟩; exact ⟨⟨h1, h2⟩, h2, h3⟩

theorem memValidDates_weekly_mem {now : Nat} {rt : Rule} {d : Nat}
    (h : rt.frequency = .weekly) :
    d ∈ memValidDates now rt ↔
      lastGen rt < d ∧ d ≤ now ∧ getDay d = jsOr rt.dayOfWeek 1 ∧
      endOk rt d = true := by
  rw [memValidDates_mem]
  unfold memDatesToProcess
  rw [h]
  rw [memGetWeeklyDates_mem]
  constructor
  · rintro ⟨⟨h1, h2, h3⟩, h4, h5⟩; exact ⟨h1, h4, h3, h5⟩
  · rintro ⟨h1, h2, h3, h4⟩; exact ⟨⟨h1, h2, h3⟩, h2, h4⟩

theorem memValidDates_custom_mem {now : Nat} {rt : Rule} {d cd : Nat}
    (h : rt.frequency = .custom) (hc : rt.customDays = some cd) (hcd : 1 ≤ cd) :
    d ∈ memValidDates now rt ↔
      (∃ k, d = lastGen rt + cd * (k + 1)) ∧ d ≤ now ∧ endOk rt d = true := by
  rw [memValidDates_mem]
  unfold memDatesToProcess
  rw [h, hc]
  have ht : jsTruthy (some cd) = true := by
    unfold jsTruthy; simp; omega
  rw [ht]
  simp only [if_true, Option.getD_some]
  rw [memGetCustomDates_mem hcd]
  constructor
  · rintro ⟨⟨k, hk, h2⟩, h3, h4⟩; exact ⟨⟨k, hk⟩, h3, h4⟩
  · rintro ⟨⟨k, hk⟩, h2, h3⟩; exact ⟨⟨k, hk, h2⟩, h2, h3⟩

theorem memValidDates_custom_none {now : Nat} {rt : Rule}
    (h : rt.frequency = .custom) (hc : jsTruthy rt.customDays = false) :
    memValidDates now rt = [] := by
  unfold memValidDates memDatesToProcess
  rw [h, hc]
  rfl

/-- Every date the `MemStorage` generators emit is strictly after the
watermark and at most `now`. -/
theorem memValidDates_bounds {now : Nat} {rt : Rule} {d : Nat}
    (hd : d ∈ memValidDates now rt) : lastGen rt < d ∧ d ≤ now := by
  rw [memValidDates_mem] at hd
  obtain ⟨h1, h2, _⟩ := hd
  refine ⟨?_, h2⟩
  unfold memDatesToProcess at h1
  rcases hf : rt.frequency with _ | _ | _ | _ <;> rw [hf] at h1
  · exact (memGetCustomDates_one_mem.mp h1).1
  · exact (memGetWeeklyDates_mem.mp h1).1
  · obtain ⟨M, _, _, hlt, _⟩ := memMonthlyAux_sound _ _ _ h1
    exact hlt
  · by_cases ht : jsTruthy rt.customDays = true
    · rw [ht] at h1
      simp only [if_true] at h1
      obtain ⟨k, hk, _⟩ := customDatesAux_sound _ _ _ h1
      have hcd : 1 ≤ rt.customDays.getD 0 := by
        unfold jsTruthy at ht
        match hcc : rt.customDays with
        | none => rw [hcc] at ht; simp at ht
        | some v => rw [hcc] at ht; simp at ht; simp [hcc]; omega
      have hmul : 0 ≤ rt.customDays.getD 0 * k := Nat.zero_le _
      omega
    · rw [Bool.not_eq_true] at ht
      rw [ht] at h1
      simp at h1

/-! ### Second runs with no time passing (idempotence) -/

/-- A second `MemStorage` run at the same `now` creates nothing — for
daily, weekly and custom rules.  (Monthly rules violate this; see the
corresponding counterexample.) -/
theorem memIdem_rule {now : Nat} {rt : Rule} (hf : rt.frequency ≠ .monthly) :
    (memProcessRule now (memProcessRule now rt).2).1 = [] := by
  by_cases ha : rt.isActive = true
  · by_cases h : memValidDates now rt = []
    · rw [memProcessRule_empty h]
      show (memProcessRule now rt).1 = []
      rw [memProcessRule_empty h]
    · rw [memProcessRule_some ha h]
      have hmem : listMax (memValidDates now rt) ∈ memValidDates now rt := listMax_mem h
      show (memProcessRule now
        { rt with lastGeneratedDate := some (listMax (memValidDates now rt)) }).1 = []
      have hempty : memValidDates now
          { rt with lastGeneratedDate := some (listMax (memValidDates now rt)) } = [] := by
        rw [List.eq_nil_iff_forall_not_mem]
        intro d hd
        rcases hfreq : rt.frequency with _ | _ | _ | _
        · -- daily
          have hd' := (@memValidDates_daily_mem now { rt with
            lastGeneratedDate := some (listMax (memValidDates now rt)) } d hfreq).mp hd
          have hb := memValidDates_bounds hmem
          have hd2 : d ∈ memValidDates now rt := by
            rw [memValidDates_daily_mem hfreq]
            exact ⟨by
              have hlg : lastGen { rt with
                lastGeneratedDate := some (listMax (memValidDates now rt)) }
                = listMax (memValidDates now rt) := rfl
              rw [hlg] at hd'
              omega, hd'.2.1, hd'.2.2⟩
          have hle := listMax_le hd2
          have hlg : lastGen { rt with
            lastGeneratedDate := some (listMax (memValidDates now rt)) }
            = listMax (memValidDates now rt) := rfl
          rw [hlg] at hd'
          omega
        · -- weekly
          have hd' := (@memValidDates_weekly_mem now { rt with
            lastGeneratedDate := some (listMax (memValidDates now rt)) } d hfreq).mp hd
          have hb := memValidDates_bounds hmem
          have hlg : lastGen { rt with
            lastGeneratedDate := some (listMax (memValidDates now rt)) }
            = listMax (memValidDates now rt) := rfl
          rw [hlg] at hd'
          have hd2 : d ∈ memValidDates now rt := by
            rw [memValidDates_weekly_mem hfreq]
            exact ⟨by omega, hd'.2.1, hd'.2.2.1, hd'.2.2.2⟩
          have hle := listMax_le hd2
          omega
        · exact absurd hfreq hf
        · -- custom
          rcases hcc : rt.customDays with _ | cdv
          · have he : memValidDates now rt = [] :=
              memValidDates_custom_none hfreq (by rw [hcc]; rfl)
            exact absurd he h
          · rcases Nat.eq_zero_or_pos cdv with hz | hpos
            · subst hz
              have he : memValidDates now rt = [] :=
                memValidDates_custom_none hfreq (by rw [hcc]; rfl)
              exact absurd he h
            · have hd' := (@memValidDates_custom_mem now { rt with
                lastGeneratedDate := some (listMax (memValidDates now rt)) }
                d cdv hfreq hcc hpos).mp hd
              have hm' := (memValidDates_custom_mem hfreq hcc hpos).mp hmem
              have hlg : lastGen { rt with
                lastGeneratedDate := some (listMax (memValidDates now rt)) }
                = listMax (memValidDates now rt) := rfl
              rw [hlg] at hd'
              obtain ⟨⟨k, hk⟩, hdn, hde⟩ := hd'
              obtain ⟨⟨km, hkm⟩, _, _⟩ := hm'
              have hd2 : d ∈ memValidDates now rt := by
                rw [memValidDates_custom_mem hfreq hcc hpos]
                refine ⟨⟨km + k + 1, ?_⟩, hdn, hde⟩
                have hr : cdv * (km + k + 1 + 1)
                    = cdv * (km + 1) + cdv * (k + 1) := by ring
                omega
              have hle := listMax_le hd2
              have hposmul : 1 ≤ cdv * (k + 1) := Nat.mul_pos hpos (by omega)
              omega
      rw [memProcessRule_empty hempty]
  · have ha' : rt.isActive = false := by simpa using ha
    have h1 : memProcessRule now rt = ([], rt) := memProcessRule_inactive ha'
    rw [h1]
    show (memProcessRule now rt).1 = []
    rw [h1]

theorem dbNextDates_of_raw_nil {now : Nat} {rt : Rule}
    (h : dbNextDatesRaw now rt = []) : dbNextDates now rt = [] := by
  unfold dbNextDates
  match rt.endDate with
  | none => exact h
  | some e => rw [h]; rfl

theorem dbNextDatesRaw_daily {now : Nat} {rt : Rule} (h : rt.frequency = .daily) :
    dbNextDatesRaw now rt = if lastGen rt = now then [] else [now] := by
  unfold dbNextDatesRaw
  rw [h]

theorem dbNextDatesRaw_weekly {now : Nat} {rt : Rule} (h : rt.frequency = .weekly) :
    dbNextDatesRaw now rt
      = if getDaysDifference (lastGen rt) now < 7 then []
        else dbGetWeeklyDates (lastGen rt) now rt.dayOfWeek := by
  unfold dbNextDatesRaw
  rw [h]

theorem dbNextDatesRaw_monthly {now : Nat} {rt : Rule} (h : rt.frequency = .monthly) :
    dbNextDatesRaw now rt
      = if getMonth (lastGen rt) = getMonth now ∧
            getFullYear (lastGen rt) = getFullYear now then []
        else dbGetMonthlyDates (lastGen rt) now
          (jsOr rt.dayOfMonth (getDate (lastGen rt))) := by
  unfold dbNextDatesRaw
  rw [h]

theorem dbNextDatesRaw_custom {now : Nat} {rt : Rule} (h : rt.frequency = .custom) :
    dbNextDatesRaw now rt
      = if !jsTruthy rt.customDays then []
        else if getDaysDifference (lastGen rt) now < rt.customDays.getD 0 then []
        else dbGetCustomDates (lastGen rt) now (rt.customDays.getD 0) := by
  unfold dbNextDatesRaw
  rw [h]

/-! ### Per-frequency views of `dbNextDates` -/

theorem dbNextDates_daily_mem {now : Nat} {rt : Rule} {d : Nat}
    (hf : rt.frequency = .daily) :
    d ∈ dbNextDates now rt ↔
      lastGen rt ≠ now ∧ d = now ∧ endOk rt d = true := by
  rw [dbNextDates_mem, dbNextDatesRaw_daily hf]
  by_cases hg : lastGen rt = now
  · rw [if_pos hg]
    simp [hg]
  · rw [if_neg hg]
    constructor
    · rintro ⟨h1, h2⟩
      exact ⟨hg, by simpa using h1, h2⟩
    · rintro ⟨_, h1, h2⟩
      exact ⟨by simp [h1], h2⟩

theorem dbNextDates_weekly_guard {now : Nat} {rt : Rule}
    (hf : rt.frequency = .weekly) (hg : getDaysDifference (lastGen rt) now < 7) :
    dbNextDates now rt = [] := by
  apply dbNextDates_of_raw_nil
  rw [dbNextDatesRaw_weekly hf, if_pos hg]

theorem dbNextDates_weekly_mem {now : Nat} {rt : Rule} {d : Nat}
    (hf : rt.frequency = .weekly)
    (hg : ¬ getDaysDifference (lastGen rt) now < 7) :
    d ∈ dbNextDates now rt ↔
      d ∈ dbGetWeeklyDates (lastGen rt) now rt.dayOfWeek ∧ endOk rt d = true := by
  rw [dbNextDates_mem, dbNextDatesRaw_weekly hf, if_neg hg]

theorem dbNextDates_monthly_guard {now : Nat} {rt : Rule}
    (hf : rt.frequency = .monthly)
    (hg : getMonth (lastGen rt) = getMonth now ∧
      getFullYear (lastGen rt) = getFullYear now) :
    dbNextDates now rt = [] := by
  apply dbNextDates_of_raw_nil
  rw [dbNextDatesRaw_monthly hf, if_pos hg]

theorem dbNextDates_monthly_mem {now : Nat} {rt : Rule} {d : Nat}
    (hf : rt.frequency = .monthly)
    (hg : ¬ (getMonth (lastGen rt) = getMonth now ∧
      getFullYear (lastGen rt) = getFullYear now)) :
    d ∈ dbNextDates now rt ↔
      d ∈ dbGetMonthlyDates (lastGen rt) now
        (jsOr rt.dayOfMonth (getDate (lastGen rt))) ∧ endOk rt d = true := by
  rw [dbNextDates_mem, dbNextDatesRaw_monthly hf, if_neg hg]

theorem dbNextDates_custom_falsy {now : Nat} {rt : Rule}
    (hf : rt.frequency = .custom) (ht : jsTruthy rt.customDays = false) :
    dbNextDates now rt = [] := by
  apply dbNextDates_of_raw_nil
  rw [dbNextDatesRaw_custom hf, ht]
  rfl

theorem dbNextDates_custom_guard {now : Nat} {rt : Rule} {cd : Nat}
    (hf : rt.frequency = .custom) (hc : rt.customDays = some cd) (hcd : 1 ≤ cd)
    (hg : getDaysDifference (lastGen rt) now < cd) :
    dbNextDates now rt = [] := by
  apply dbNextDates_of_raw_nil
  rw [dbNextDatesRaw_custom hf, hc]
  have ht : jsTruthy (some cd) = true := by unfold jsTruthy; simp; omega
  rw [ht]
  simp only [Bool.not_true, Bool.false_eq_true, if_false, Option.getD_some]
  rw [if_pos hg]

theorem dbNextDates_custom_mem {now : Nat} {rt : Rule} {d cd : Nat}
    (hf : rt.frequency = .custom) (hc : rt.customDays = some cd) (hcd : 1 ≤ cd)
    (hg : ¬ getDaysDifference (lastGen rt) now < cd) :
    d ∈ dbNextDates now rt ↔
      (∃ k, d = lastGen rt + cd * (k + 1)) ∧ d ≤ now ∧ endOk rt d = true := by
  rw [dbNextDates_mem, dbNextDatesRaw_custom hf, hc]
  have ht : jsTruthy (some cd) = true := by unfold jsTruthy; simp; omega
  rw [ht]
  simp only [Bool.not_true, Bool.false_eq_true, if_false, Option.getD_some]
  rw [if_neg hg, dbGetCustomDates_eq_mem, memGetCustomDates_mem hcd]
  constructor
  · rintro ⟨⟨k, hk, h2⟩, h3⟩
    exact ⟨⟨k, hk⟩, h2, h3⟩
  · rintro ⟨⟨k, hk⟩, h2, h3⟩
    exact ⟨⟨k, hk, h2⟩, h3⟩

theorem getDaysDifference_of_le {a b : Nat} (h : a ≤ b) :
    getDaysDifference a b = b - a := by
  unfold getDaysDifference
  rw [Nat.max_eq_right h, Nat.min_eq_left h]

/-- A second `DatabaseStorage` run at the same `now` creates nothing for a
daily rule. -/
theorem dbIdem_daily {now : Nat} {rt : Rule} (hf : rt.frequency = .daily) :
    (dbProcessRule now (dbProcessRule now rt).2).1 = [] := by
  by_cases h : dbNextDates now rt = []
  · have h1 : dbProcessRule now rt = ([], rt) := dbProcessRule_empty h
    rw [h1]
    show (dbProcessRule now rt).1 = []
    rw [h1]
  · rw [dbProcessRule_some h]
    set m := listMax (dbNextDates now rt) with hmdef
    set rtp : Rule := { rt with lastGeneratedDate := some m } with hrtp
    show (dbProcessRule now rtp).1 = []
    have hmem : m ∈ dbNextDates now rt := listMax_mem h
    have hm := (dbNextDates_daily_mem hf).mp hmem
    have hempty : dbNextDates now rtp = [] := by
      rw [List.eq_nil_iff_forall_not_mem]
      intro d hd
      rw [@dbNextDates_daily_mem now rtp d hf] at hd
      exact hd.1 (show lastGen rtp = now from hm.2.1)
    rw [dbProcessRule_empty hempty]

/-- A second `DatabaseStorage` run at the same `now` creates nothing for a
custom-interval rule. -/
theorem dbIdem_custom {now : Nat} {rt : Rule} (hf : rt.frequency = .custom) :
    (dbProcessRule now (dbProcessRule now rt).2).1 = [] := by
  by_cases h : dbNextDates now rt = []
  · have h1 : dbProcessRule now rt = ([], rt) := dbProcessRule_empty h
    rw [h1]
    show (dbProcessRule now rt).1 = []
    rw [h1]
  · rw [dbProcessRule_some h]
    set m := listMax (dbNextDates now rt) with hmdef
    set rtp : Rule := { rt with lastGeneratedDate := some m } with hrtp
    show (dbProcessRule now rtp).1 = []
    have hmem : m ∈ dbNextDates now rt := listMax_mem h
    rcases hcc : rt.customDays with _ | cdv
    · exact absurd (dbNextDates_custom_falsy hf (by rw [hcc]; rfl)) h
    · rcases Nat.eq_zero_or_pos cdv with hz | hpos
      · subst hz
        exact absurd (dbNextDates_custom_falsy hf (by rw [hcc]; rfl)) h
      · by_cases hg : getDaysDifference (lastGen rt) now < cdv
        · exact absurd (dbNextDates_custom_guard hf hcc hpos hg) h
        · obtain ⟨⟨km, hkm⟩, hmn, hme⟩ := (dbNextDates_custom_mem hf hcc hpos hg).mp hmem
          have hempty : dbNextDates now rtp = [] := by
            rw [List.eq_nil_iff_forall_not_mem]
            intro d hd
            by_cases hg2 : getDaysDifference (lastGen rtp) now < cdv
            · rw [@dbNextDates_custom_guard now rtp cdv hf hcc hpos hg2] at hd
              simp at hd
            · rw [@dbNextDates_custom_mem now rtp d cdv hf hcc hpos hg2] at hd
              obtain ⟨⟨k, hk⟩, hdn, hde⟩ := hd
              have hlg : lastGen rtp = m := rfl
              rw [hlg] at hk
              have hd2 : d ∈ dbNextDates now rt := by
                rw [dbNextDates_custom_mem hf hcc hpos hg]
                refine ⟨⟨km + k + 1, ?_⟩, hdn, hde⟩
                have hr : cdv * (km + k + 1 + 1)
                    = cdv * (km + 1) + cdv * (k + 1) := by ring
                omega
              have hle := listMax_le hd2
              have hposmul : 1 ≤ cdv * (k + 1) := Nat.mul_pos hpos (by omega)
              omega
          rw [dbProcessRule_empty hempty]

/-- A second `DatabaseStorage` run at the same `now` creates nothing for a
weekly rule without an end date and with a well-formed (or absent) anchor. -/
theorem dbIdem_weekly {now : Nat} {rt : Rule} (hf : rt.frequency = .weekly)
    (hend : rt.endDate = none)
    (han : rt.dayOfWeek = none ∨ ∃ t, rt.dayOfWeek = some t ∧ t ≤ 6) :
    (dbProcessRule now (dbProcessRule now rt).2).1 = [] := by
  by_cases h : dbNextDates now rt = []
  · have h1 : dbProcessRule now rt = ([], rt) := dbProcessRule_empty h
    rw [h1]
    show (dbProcessRule now rt).1 = []
    rw [h1]
  · rw [dbProcessRule_some h]
    set m := listMax (dbNextDates now rt) with hmdef
    set rtp : Rule := { rt with lastGeneratedDate := some m } with hrtp
    show (dbProcessRule now rtp).1 = []
    have hmem : m ∈ dbNextDates now rt := listMax_mem h
    by_cases hg : getDaysDifference (lastGen rt) now < 7
    · exact absurd (dbNextDates_weekly_guard hf hg) h
    · have hm := (dbNextDates_weekly_mem hf hg).mp hmem
      have hiff : ∃ T, ∀ x : Nat,
          x ∈ dbGetWeeklyDates (lastGen rt) now rt.dayOfWeek ↔
            lastGen rt ≤ x ∧ x ≤ now ∧ getDay x = T := by
        rcases han with hnone | ⟨t, hsome, ht⟩
        · exact ⟨getDay (lastGen rt), fun x => by
            rw [hnone]; exact dbGetWeeklyDates_none_mem⟩
        · exact ⟨t, fun x => by
            rw [hsome]; exact dbGetWeeklyDates_some_mem ht⟩
      obtain ⟨T, hiff⟩ := hiff
      have hm1 := (hiff m).mp hm.1
      have hg2 : getDaysDifference (lastGen rtp) now < 7 := by
        show getDaysDifference m now < 7
        rw [getDaysDifference_of_le hm1.2.1]
        by_contra hcon
        have hn7 : m + 7 ≤ now := by omega
        have hmem7 : m + 7 ∈ dbNextDates now rt := by
          rw [dbNextDates_weekly_mem hf hg]
          refine ⟨(hiff (m + 7)).mpr ⟨by omega, hn7, ?_⟩, ?_⟩
          · have hdow := hm1.2.2
            unfold getDay at hdow ⊢
            omega
          · unfold endOk
            rw [hend]
        have := listMax_le hmem7
        omega
      have hempty : dbNextDates now rtp = [] := @dbNextDates_weekly_guard now rtp hf hg2
      rw [dbProcessRule_empty hempty]

/-- A second `DatabaseStorage` run at the same `now` creates nothing for a
monthly rule whose `dayOfMonth` anchor is set and non-zero. -/
theorem dbIdem_monthly {now : Nat} {rt : Rule} {a : Nat} (hf : rt.frequency = .monthly)
    (hdom : rt.dayOfMonth = some a) (ha : a ≠ 0) :
    (dbProcessRule now (dbProcessRule now rt).2).1 = [] := by
  by_cases h : dbNextDates now rt = []
  · have h1 : dbProcessRule now rt = ([], rt) := dbProcessRule_empty h
    rw [h1]
    show (dbProcessRule now rt).1 = []
    rw [h1]
  · rw [dbProcessRule_some h]
    set m := listMax (dbNextDates now rt) with hmdef
    set rtp : Rule := { rt with lastGeneratedDate := some m } with hrtp
    show (dbProcessRule now rtp).1 = []
    have hmem : m ∈ dbNextDates now rt := listMax_mem h
    by_cases hg : getMonth (lastGen rt) = getMonth now ∧
        getFullYear (lastGen rt) = getFullYear now
    · exact absurd (dbNextDates_monthly_guard hf hg) h
    · have hm := (dbNextDates_monthly_mem hf hg).mp hmem
      have hjs : jsOr rt.dayOfMonth (getDate (lastGen rt)) = a := by
        rw [hdom]; simp [jsOr, ha]
      rw [hjs] at hm
      obtain ⟨hm1, hme⟩ := hm
      rw [dbGetMonthlyDates_mem] at hm1
      obtain ⟨Mstar, hMs, hmeq, hmlb, hmub⟩ := hm1
      by_cases hg2 : getMonth (lastGen rtp) = getMonth now ∧
          getFullYear (lastGen rtp) = getFullYear now
      · have hempty := @dbNextDates_monthly_guard now rtp hf hg2
        rw [dbProcessRule_empty hempty]
      · have hempty : dbNextDates now rtp = [] := by
          rw [List.eq_nil_iff_forall_not_mem]
          intro d hd
          rw [@dbNextDates_monthly_mem now rtp d hf hg2] at hd
          have hjs2 : jsOr rtp.dayOfMonth (getDate (lastGen rtp)) = a := by
            show jsOr rt.dayOfMonth (getDate (lastGen rtp)) = a
            rw [hdom]; simp [jsOr, ha]
          rw [hjs2] at hd
          obtain ⟨hd1, hde⟩ := hd
          rw [dbGetMonthlyDates_mem] at hd1
          obtain ⟨Mp, hMps, hdeq, hdlb, hdub⟩ := hd1
          have hlg : lastGen rtp = m := rfl
          rw [hlg] at hMps hdlb
          have hMstar1970 : 1970 * 12 ≤ Mstar := by
            have h1 := monthIdx_ge (lastGen rt)
            have h2 : monthIdx (lastGen rt) ≤ dbMonthlyStartIdx (lastGen rt) := by
              unfold dbMonthlyStartIdx; split <;> omega
            omega
          have hmonm : monthIdx m = Mstar := by
            rw [hmeq]; exact monthIdx_clampedDate a hMstar1970
          have hSm : monthIdx m ≤ dbMonthlyStartIdx m := by
            unfold dbMonthlyStartIdx; split <;> omega
          have hMpge : dbMonthlyStartIdx (lastGen rt) ≤ Mp := by omega
          have hd2 : d ∈ dbNextDates now rt := by
            rw [dbNextDates_monthly_mem hf hg, hjs]
            refine ⟨?_, hde⟩
            rw [dbGetMonthlyDates_mem]
            exact ⟨Mp, hMpge, hdeq, by omega, hdub⟩
          have hle := listMax_le hd2
          omega
        rw [dbProcessRule_empty hempty]

/-! ### Lifting to the full processors -/

theorem memProcessAll_nil (now : Nat) : memProcessAll now [] = ([], []) := rfl

theorem memProcessAll_cons (now : Nat) (r : Rule) (rs : List Rule) :
    memProcessAll now (r :: rs)
      = ((memProcessRule now r).1 ++ (memProcessAll now rs).1,
         (memProcessRule now r).2 :: (memProcessAll now rs).2) := rfl

theorem dbProcessAll_nil (now : Nat) : dbProcessAll now [] = ([], []) := rfl

theorem dbProcessAll_cons (now : Nat) (r : Rule) (rs : List Rule) :
    dbProcessAll now (r :: rs)
      = ((if r.isActive then dbProcessRule now r else ([], r)).1
           ++ (dbProcessAll now rs).1,
         (if r.isActive then dbProcessRule now r else ([], r)).2
           :: (dbProcessAll now rs).2) := rfl

/-- Dispatcher for the `DatabaseStorage` second-run lemmas. -/
theorem dbIdem_rule {now : Nat} {rt : Rule}
    (hw : rt.frequency = .weekly → rt.endDate = none ∧
      (rt.dayOfWeek = none ∨ ∃ t, rt.dayOfWeek = some t ∧ t ≤ 6))
    (hmo : rt.frequency = .monthly → ∃ a, rt.dayOfMonth = some a ∧ a ≠ 0) :
    (dbProcessRule now (dbProcessRule now rt).2).1 = [] := by
  rcases hf : rt.frequency with _ | _ | _ | _
  · exact dbIdem_daily hf
  · obtain ⟨he, han⟩ := hw hf
    exact dbIdem_weekly hf he han
  · obtain ⟨a, hd, ha⟩ := hmo hf
    exact dbIdem_monthly hf hd ha
  · exact dbIdem_custom hf

/-- Second `MemStorage.processRecurringTransactions` run with no time
passing: zero transactions, provided no rule is monthly. -/
theorem memProcessAll_idem {now : Nat} {rules : List Rule}
    (hf : ∀ r ∈ rules, r.frequency ≠ .monthly) :
    (memProcessAll now (memProcessAll now rules).2).1.length = 0 := by
  induction rules with
  | nil => rfl
  | cons r rs ih =>
      rw [memProcessAll_cons, memProcessAll_cons, List.length_append]
      have h1 : (memProcessRule now (memProcessRule now r).2).1 = [] :=
        memIdem_rule (hf r (by simp))
      have h2 := ih (fun x hx => hf x (by simp [hx]))
      rw [h1]
      simpa using h2

/-- Second `DatabaseStorage.processRecurringTransactions` run with no time
passing: zero transactions, provided weekly rules have no end date and a
well-formed anchor, and monthly rules have an explicit non-zero anchor. -/
theorem dbProcessAll_idem {now : Nat} {rules : List Rule}
    (hcond : ∀ r ∈ rules,
      (r.frequency = .weekly → r.endDate = none ∧
        (r.dayOfWeek = none ∨ ∃ t, r.dayOfWeek = some t ∧ t ≤ 6)) ∧
      (r.frequency = .monthly → ∃ a, r.dayOfMonth = some a ∧ a ≠ 0)) :
    (dbProcessAll now (dbProcessAll now rules).2).1.length = 0 := by
  induction rules with
  | nil => rfl
  | cons r rs ih =>
      rw [dbProcessAll_cons, dbProcessAll_cons, List.length_append]
      have h2 := ih (fun x hx => hcond x (by simp [hx]))
      have h1 : (if ((if r.isActive then dbProcessRule now r else ([], r)).2).isActive
          then dbProcessRule now ((if r.isActive then dbProcessRule now r else ([], r)).2)
          else ([], (if r.isActive then dbProcessRule now r else ([], r)).2)).1 = [] := by
        rcases hact : r.isActive with _ | _
        · simp [hact]
        · have e1 : (if (true : Bool) = true then dbProcessRule now r
              else (([], r) : List Txn × Rule)) = dbProcessRule now r := if_pos rfl
          rw [e1]
          have hpres : (dbProcessRule now r).2.isActive = true := by
            rw [(dbProcessRule_pres now r).2.2.2.2.2.1]; exact hact
          rw [hpres, if_pos rfl]
          obtain ⟨hc1, hc2⟩ := hcond r (by simp)
          exact dbIdem_rule hc1 hc2
      rw [h1]
      simpa using h2

/-! ### End-date bounds -/

theorem memProcessRule_endDate {now : Nat} {rt : Rule} {e : Nat}
    (he : rt.endDate = some e) :
    ∀ t ∈ (memProcessRule now rt).1, t.date ≤ e := by
  intro t ht
  rcases ha : rt.isActive with _ | _
  · rw [memProcessRule_inactive ha] at ht
    simp at ht
  · by_cases hv : memValidDates now rt = []
    · rw [memProcessRule_empty hv] at ht
      simp at ht
    · rw [memProcessRule_some ha hv] at ht
      simp only [List.mem_map] at ht
      obtain ⟨d, hd, rfl⟩ := ht
      have h3 := (memValidDates_mem.mp hd).2.2
      unfold endOk at h3
      rw [he] at h3
      show d ≤ e
      exact of_decide_eq_true h3

theorem dbProcessRule_endDate {now : Nat} {rt : Rule} {e : Nat}
    (he : rt.endDate = some e) :
    ∀ t ∈ (dbProcessRule now rt).1, t.date ≤ e := by
  intro t ht
  by_cases hv : dbNextDates now rt = []
  · rw [dbProcessRule_empty hv] at ht
    simp at ht
  · rw [dbProcessRule_some hv] at ht
    simp only [List.mem_map] at ht
    obtain ⟨d, hd, rfl⟩ := ht
    have h3 := (dbNextDates_mem.mp hd).2
    unfold endOk at h3
    rw [he] at h3
    show d ≤ e
    exact of_decide_eq_true h3

/-- One rule's step inside `DatabaseStorage.processRecurringTransactions`:
the query loads only `isActive = true` rows, so an inactive rule is
skipped untouched. -/
def dbStepRule (now : Nat) (rt : Rule) : List Txn × Rule :=
  if rt.isActive then dbProcessRule now rt else ([], rt)

theorem dbStepRule_endDate {now : Nat} {rt : Rule} {e : Nat}
    (he : rt.endDate = some e) :
    ∀ t ∈ (dbStepRule now rt).1, t.date ≤ e := by
  unfold dbStepRule
  split
  · exact dbProcessRule_endDate he
  · intro t ht; simp at ht

theorem dbStepRule_endDate_pres (now : Nat) (rt : Rule) :
    (dbStepRule now rt).2.endDate = rt.endDate := by
  unfold dbStepRule
  split
  · exact (dbProcessRule_pres now rt).2.1
  · rfl

/-- Repeated runs of the `MemStorage` processor on one rule at the times
in `ns`, collecting every transaction created along the way. -/
def memRunSeqRule : List Nat → Rule → List Txn × Rule
  | [], rt => ([], rt)
  | n :: ns, rt =>
      let p := memProcessRule n rt
      let q := memRunSeqRule ns p.2
      (p.1 ++ q.1, q.2)

/-- Repeated runs of the `DatabaseStorage` processor on one rule. -/
def dbRunSeqRule : List Nat → Rule → List Txn × Rule
  | [], rt => ([], rt)
  | n :: ns, rt =>
      let p := dbStepRule n rt
      let q := dbRunSeqRule ns p.2
      (p.1 ++ q.1, q.2)

theorem memRunSeqRule_endDate {ns : List Nat} {rt : Rule} {e : Nat}
    (he : rt.endDate = some e) :
    ∀ t ∈ (memRunSeqRule ns rt).1, t.date ≤ e := by
  induction ns generalizing rt with
  | nil => intro t ht; simp [memRunSeqRule] at ht
  | cons n ns ih =>
      intro t ht
      simp only [memRunSeqRule] at ht
      rcases List.mem_append.mp ht with h1 | h1
      · exact memProcessRule_endDate he t h1
      · exact ih (by rw [(memProcessRule_pres n rt).2.1]; exact he) t h1

theorem dbRunSeqRule_endDate {ns : List Nat} {rt : Rule} {e : Nat}
    (he : rt.endDate = some e) :
    ∀ t ∈ (dbRunSeqRule ns rt).1, t.date ≤ e := by
  induction ns generalizing rt with
  | nil => intro t ht; simp [dbRunSeqRule] at ht
  | cons n ns ih =>
      intro t ht
      simp only [dbRunSeqRule] at ht
      rcases List.mem_append.mp ht with h1 | h1
      · exact dbStepRule_endDate he t h1
      · exact ih (by rw [dbStepRule_endDate_pres n rt]; exact he) t h1

/-! ### Watermark facts -/

/-- storage.ts 364–383: an empty batch leaves the rule untouched; a
nonempty batch sets the watermark to the maximum generated date, which is
itself one of the created transactions' dates. -/
theorem memProcessRule_watermark (now : Nat) (rt : Rule) :
    ((memProcessRule now rt).1 = [] → (memProcessRule now rt).2 = rt) ∧
    ((memProcessRule now rt).1 ≠ [] →
      (memProcessRule now rt).2.lastGeneratedDate
          = some (listMax ((memProcessRule now rt).1.map Txn.date)) ∧
      listMax ((memProcessRule now rt).1.map Txn.date)
          ∈ (memProcessRule now rt).1.map Txn.date) := by
  rcases ha : rt.isActive with _ | _
  · rw [memProcessRule_inactive ha]
    exact ⟨fun _ => rfl, fun h => absurd rfl h⟩
  · by_cases hv : memValidDates now rt = []
    · rw [memProcessRule_empty hv]
      exact ⟨fun _ => rfl, fun h => absurd rfl h⟩
    · have hd := @memProcessRule_dates now rt ha
      constructor
      · intro h
        exfalso
        apply hv
        rw [← hd, h]
        rfl
      · intro hne
        have h2 : (memProcessRule now rt).2.lastGeneratedDate
            = some (listMax (memValidDates now rt)) := by
          rw [memProcessRule_some ha hv]
        rw [hd]
        exact ⟨h2, listMax_mem hv⟩

theorem dbStepRule_watermark (now : Nat) (rt : Rule) :
    ((dbStepRule now rt).1 = [] → (dbStepRule now rt).2 = rt) ∧
    ((dbStepRule now rt).1 ≠ [] →
      (dbStepRule now rt).2.lastGeneratedDate
          = some (listMax ((dbStepRule now rt).1.map Txn.date)) ∧
      listMax ((dbStepRule now rt).1.map Txn.date)
          ∈ (dbStepRule now rt).1.map Txn.date) := by
  unfold dbStepRule
  split
  · by_cases hv : dbNextDates now rt = []
    · rw [dbProcessRule_empty hv]
      exact ⟨fun _ => rfl, fun h => absurd rfl h⟩
    · have hd := dbProcessRule_dates now rt
      constructor
      · intro h
        exfalso
        apply hv
        rw [← hd, h]
        rfl
      · intro hne
        have h2 : (dbProcessRule now rt).2.lastGeneratedDate
            = some (listMax (dbNextDates now rt)) := by
          rw [dbProcessRule_some hv]
        rw [hd]
        exact ⟨h2, listMax_mem hv⟩
  · exact ⟨fun _ => rfl, fun h => absurd rfl h⟩

/-! ### Lower bounds on the `DatabaseStorage` generated dates -/

theorem dbGetWeeklyDates_ge {lb ub x : Nat} {o : Option Nat}
    (hx : x ∈ dbGetWeeklyDates lb ub o) : lb ≤ x := by
  rcases o with _ | t
  · simp only [dbGetWeeklyDates] at hx
    rw [dbWeeklyAux_eq_custom] at hx
    obtain ⟨k, hk, _⟩ := customDatesAux_sound _ _ _ hx
    have hb := (dbAlignAux_bounds (getDay lb) 7 lb).1
    split at hk <;> omega
  · simp only [dbGetWeeklyDates] at hx
    rw [dbWeeklyAux_eq_custom] at hx
    obtain ⟨k, hk, _⟩ := customDatesAux_sound _ _ _ hx
    have hb := (dbAlignAux_bounds t 7 lb).1
    split at hk <;> omega

theorem dbNextDatesRaw_ge {now : Nat} {rt : Rule} {d : Nat}
    (hn : lastGen rt ≤ now) (hd : d ∈ dbNextDatesRaw now rt) :
    lastGen rt ≤ d := by
  rcases hf : rt.frequency with _ | _ | _ | _
  · rw [dbNextDatesRaw_daily hf] at hd
    split at hd
    · simp at hd
    · simp at hd
      omega
  · rw [dbNextDatesRaw_weekly hf] at hd
    split at hd
    · simp at hd
    · exact dbGetWeeklyDates_ge hd
  · rw [dbNextDatesRaw_monthly hf] at hd
    split at hd
    · simp at hd
    · obtain ⟨M, _, _, hlt, _⟩ := dbGetMonthlyDates_mem.mp hd
      omega
  · rw [dbNextDatesRaw_custom hf] at hd
    split at hd
    · simp at hd
    · split at hd
      · simp at hd
      · unfold dbGetCustomDates at hd
        obtain ⟨k, hk, _⟩ := customDatesAux_sound _ _ _ hd
        have h0 : 0 ≤ rt.customDays.getD 0 * k := Nat.zero_le _
        omega

theorem dbNextDates_ge {now : Nat} {rt : Rule} {d : Nat}
    (hn : lastGen rt ≤ now) (hd : d ∈ dbNextDates now rt) :
    lastGen rt ≤ d :=
  dbNextDatesRaw_ge hn (dbNextDates_mem.mp hd).1

/-! ### The watermark never regresses -/

theorem memProcessRule_mono {now : Nat} {rt : Rule} {w w' : Nat}
    (hw : rt.lastGeneratedDate = some w)
    (hw' : (memProcessRule now rt).2.lastGeneratedDate = some w') :
    w ≤ w' := by
  rcases ha : rt.isActive with _ | _
  · rw [memProcessRule_inactive ha, hw] at hw'
    exact le_of_eq (Option.some.inj hw')
  · by_cases hv : memValidDates now rt = []
    · rw [memProcessRule_empty hv, hw] at hw'
      exact le_of_eq (Option.some.inj hw')
    · have h2 : (memProcessRule now rt).2.lastGeneratedDate
          = some (listMax (memValidDates now rt)) := by
        rw [memProcessRule_some ha hv]
      rw [h2] at hw'
      have hb := memValidDates_bounds (listMax_mem hv)
      have hlg : lastGen rt = w := by unfold lastGen; rw [hw]; rfl
      have he := Option.some.inj hw'
      omega

theorem dbStepRule_mono {now : Nat} {rt : Rule} {w w' : Nat}
    (hw : rt.lastGeneratedDate = some w) (hn : w ≤ now)
    (hw' : (dbStepRule now rt).2.lastGeneratedDate = some w') :
    w ≤ w' := by
  have hlg : lastGen rt = w := by unfold lastGen; rw [hw]; rfl
  unfold dbStepRule at hw'
  split at hw'
  · by_cases hv : dbNextDates now rt = []
    · rw [dbProcessRule_empty hv, hw] at hw'
      exact le_of_eq (Option.some.inj hw')
    · have h2 : (dbProcessRule now rt).2.lastGeneratedDate
          = some (listMax (dbNextDates now rt)) := by
        rw [dbProcessRule_some hv]
      rw [h2] at hw'
      have hge := dbNextDates_ge (by omega) (listMax_mem hv)
      have he := Option.some.inj hw'
      omega
  · rw [hw] at hw'
    exact le_of_eq (Option.some.inj hw')

/-! ### Watermark over a sequence of runs -/

theorem memRunSeqRule_watermark :
    ∀ (ns : List Nat) (rt : Rule),
      (memRunSeqRule ns rt).2.lastGeneratedDate = rt.lastGeneratedDate ∨
      ∃ w, (memRunSeqRule ns rt).2.lastGeneratedDate = some w ∧
        w ∈ (memRunSeqRule ns rt).1.map Txn.date := by
  intro ns
  induction ns with
  | nil => intro rt; left; rfl
  | cons n ns ih =>
      intro rt
      simp only [memRunSeqRule]
      rcases ih (memProcessRule n rt).2 with h1 | ⟨w, hw1, hw2⟩
      · by_cases he : (memProcessRule n rt).1 = []
        · left
          rw [h1, (memProcessRule_watermark n rt).1 he]
        · right
          obtain ⟨hset, hmem⟩ := (memProcessRule_watermark n rt).2 he
          refine ⟨listMax ((memProcessRule n rt).1.map Txn.date), ?_, ?_⟩
          · rw [h1, hset]
          · rw [List.map_append]
            exact List.mem_append.mpr (Or.inl hmem)
      · right
        refine ⟨w, hw1, ?_⟩
        rw [List.map_append]
        exact List.mem_append.mpr (Or.inr hw2)

theorem dbRunSeqRule_watermark :
    ∀ (ns : List Nat) (rt : Rule),
      (dbRunSeqRule ns rt).2.lastGeneratedDate = rt.lastGeneratedDate ∨
      ∃ w, (dbRunSeqRule ns rt).2.lastGeneratedDate = some w ∧
        w ∈ (dbRunSeqRule ns rt).1.map Txn.date := by
  intro ns
  induction ns with
  | nil => intro rt; left; rfl
  | cons n ns ih =>
      intro rt
      simp only [dbRunSeqRule]
      rcases ih (dbStepRule n rt).2 with h1 | ⟨w, hw1, hw2⟩
      · by_cases he : (dbStepRule n rt).1 = []
        · left
          rw [h1, (dbStepRule_watermark n rt).1 he]
        · right
          obtain ⟨hset, hmem⟩ := (dbStepRule_watermark n rt).2 he
          refine ⟨listMax ((dbStepRule n rt).1.map Txn.date), ?_, ?_⟩
          · rw [h1, hset]
          · rw [List.map_append]
            exact List.mem_append.mpr (Or.inl hmem)
      · right
        refine ⟨w, hw1, ?_⟩
        rw [List.map_append]
        exact List.mem_append.mpr (Or.inr hw2)

/-! ### Backend agreement on custom-frequency rules -/

theorem getDaysDifference_of_ge {a b : Nat} (h : b ≤ a) :
    getDaysDifference a b = a - b := by
  unfold getDaysDifference
  rw [Nat.max_eq_left h, Nat.min_eq_right h]

/-- On a custom-frequency rule the two backends compute literally the same
list of valid dates: the `DatabaseStorage` interval guard only rules out
cases where the shared `getCustomDates` list is empty anyway, `MemStorage`'s
`date <= now` filter never removes anything the generator emits, and the
end-date filters coincide. -/
theorem memdb_custom_valid {now : Nat} {rt : Rule} (hf : rt.frequency = .custom) :
    memValidDates now rt = dbNextDates now rt := by
  by_cases ht : jsTruthy rt.customDays = true
  case neg =>
    rw [Bool.not_eq_true] at ht
    rw [memValidDates_custom_none hf ht, dbNextDates_custom_falsy hf ht]
  case pos =>
    obtain ⟨cd, hcc, hcd⟩ : ∃ cd, rt.customDays = some cd ∧ 1 ≤ cd := by
      unfold jsTruthy at ht
      match h : rt.customDays with
      | none => rw [h] at ht; simp at ht
      | some v =>
          rw [h] at ht
          simp at ht
          exact ⟨v, rfl, by omega⟩
    have hmemlist : memDatesToProcess now rt
        = memGetCustomDates (lastGen rt) now cd := by
      unfold memDatesToProcess
      rw [hf, ht]
      simp [hcc]
    by_cases hg : getDaysDifference (lastGen rt) now < cd
    · rw [dbNextDates_custom_guard hf hcc hcd hg]
      rw [memValidDates_eq, hmemlist]
      have hempty : memGetCustomDates (lastGen rt) now cd = [] := by
        unfold memGetCustomDates
        rcases Nat.le_total (lastGen rt) now with hle | hle
        · rw [getDaysDifference_of_le hle] at hg
          have h0 : now + 1 - (lastGen rt + cd) = 0 := by omega
          rw [h0]
          rfl
        · rw [getDaysDifference_of_ge hle] at hg
          have h0 : now + 1 - (lastGen rt + cd) = 0 := by omega
          rw [h0]
          rfl
      rw [hempty]
      rfl
    · have hraw : dbNextDatesRaw now rt = dbGetCustomDates (lastGen rt) now cd := by
        rw [dbNextDatesRaw_custom hf, hcc]
        have ht2 : jsTruthy (some cd) = true := by unfold jsTruthy; simp; omega
        rw [ht2]
        simp only [Bool.not_true, Bool.false_eq_true, if_false, Option.getD_some]
        rw [if_neg hg]
      have hsub : ∀ d ∈ memGetCustomDates (lastGen rt) now cd,
          decide (d ≤ now) = true := by
        intro d hd
        unfold memGetCustomDates at hd
        obtain ⟨k, hk, hle⟩ := customDatesAux_sound _ _ _ hd
        exact decide_eq_true hle
      rw [memValidDates_eq, hmemlist]
      rcases he : rt.endDate with _ | e
      · have hok : ∀ d ∈ memGetCustomDates (lastGen rt) now cd,
            (decide (d ≤ now) && endOk rt d) = true := by
          intro d hd
          rw [Bool.and_eq_true]
          refine ⟨hsub d hd, ?_⟩
          unfold endOk
          rw [he]
        rw [List.filter_eq_self.mpr hok]
        have hdb : dbNextDates now rt = dbNextDatesRaw now rt := by
          unfold dbNextDates
          rw [he]
        rw [hdb, hraw, dbGetCustomDates_eq_mem]
      · have hdb : dbNextDates now rt
            = (dbNextDatesRaw now rt).filter (fun d => decide (d ≤ e)) := by
          unfold dbNextDates
          rw [he]
        rw [hdb, hraw, dbGetCustomDates_eq_mem]
        apply List.filter_congr
        intro d hd
        rw [hsub d hd, Bool.true_and]
        unfold endOk
        rw [he]

/-- Rule-level backend agreement for custom-frequency active rules: same
dates, same count, same watermark, same amounts. -/
theorem memdb_custom_rule {now : Nat} {rt : Rule} (hf : rt.frequency = .custom)
    (ha : rt.isActive = true) :
    (memProcessRule now rt).1.map Txn.date = (dbProcessRule now rt).1.map Txn.date ∧
    (memProcessRule now rt).1.length = (dbProcessRule now rt).1.length ∧
    (memProcessRule now rt).2.lastGeneratedDate
      = (dbProcessRule now rt).2.lastGeneratedDate ∧
    (memProcessRule now rt).1.map Txn.amount
      = (dbProcessRule now rt).1.map Txn.amount := by
  have hv := @memdb_custom_valid now rt hf
  have hd1 := @memProcessRule_dates now rt ha
  have hd2 := dbProcessRule_dates now rt
  refine ⟨by rw [hd1, hd2, hv], ?_, ?_, ?_⟩
  · have hlen := congrArg List.length (hd1.trans (hv.trans hd2.symm))
    simpa using hlen
  · by_cases he : memValidDates now rt = []
    · have hdbe : dbNextDates now rt = [] := by rw [← hv]; exact he
      rw [memProcessRule_empty he, dbProcessRule_empty hdbe]
    · have hdbe : dbNextDates now rt ≠ [] := by rw [← hv]; exact he
      have h1 : (memProcessRule now rt).2.lastGeneratedDate
          = some (listMax (memValidDates now rt)) := by
        rw [memProcessRule_some ha he]
      have h2 : (dbProcessRule now rt).2.lastGeneratedDate
          = some (listMax (dbNextDates now rt)) := by
        rw [dbProcessRule_some hdbe]
      rw [h1, h2, hv]
  · by_cases he : memValidDates now rt = []
    · have hdbe : dbNextDates now rt = [] := by rw [← hv]; exact he
      rw [memProcessRule_empty he, dbProcessRule_empty hdbe]
    · have hdbe : dbNextDates now rt ≠ [] := by rw [← hv]; exact he
      rw [memProcessRule_some ha he, dbProcessRule_some hdbe]
      simp only [List.map_map]
      rw [hv]
      rfl

/-- Store-level backend agreement when every rule is custom-frequency. -/
theorem memdb_custom_all {now : Nat} {rules : List Rule}
    (hf : ∀ r ∈ rules, r.frequency = .custom) :
    (memProcessAll now rules).1.map Txn.date
      = (dbProcessAll now rules).1.map Txn.date ∧
    (memProcessAll now rules).1.length = (dbProcessAll now rules).1.length ∧
    (memProcessAll now rules).2.map Rule.lastGeneratedDate
      = (dbProcessAll now rules).2.map Rule.lastGeneratedDate := by
  induction rules with
  | nil => exact ⟨rfl, rfl, rfl⟩
  | cons r rs ih =>
      obtain ⟨ih1, ih2, ih3⟩ := ih (fun x hx => hf x (by simp [hx]))
      rw [memProcessAll_cons, dbProcessAll_cons]
      rcases ha : r.isActive with _ | _
      · rw [memProcessRule_inactive ha, if_neg (by simp [ha])]
        refine ⟨?_, ?_, ?_⟩
        · simpa using ih1
        · simpa using ih2
        · simpa using ih3
      · rw [if_pos (by simp [ha])]
        obtain ⟨e1, e2, e3, _⟩ := memdb_custom_rule (hf r (by simp)) ha
        refine ⟨?_, ?_, ?_⟩
        · simp only [List.map_append]
          rw [e1, ih1]
        · simp only [List.length_append]
          rw [e2, ih2]
        · simp only [List.map_cons]
          have e4 : (memProcessRule now r).2.lastGeneratedDate
              = (dbProcessRule now r).2.lastGeneratedDate := e3
          rw [e4, ih3]

/-! ### Concrete rules for the claims

Day indices: 19723 = 2024-01-01 (a Monday), 19725 = 2024-01-03 (Wednesday),
19753 = 2024-01-31, 19782 = 2024-02-29, 19813 = 2024-03-31,
19843 = 2024-04-30, 20088 = 2024-12-31, 20119 = 2025-01-31,
20139 = 2025-02-20, 20147 = 2025-02-28, 20175 = 2025-03-28,
20176 = 2025-03-29. -/

/-- A daily rule started Monday 2024-01-01, never yet processed. -/
def sampleRule : Rule :=
  { id := 1, userId := 1, description := "rent", amount := 100,
    categoryId := none, currency := "USD", notes := none, isIncome := 0,
    frequency := .daily, startDate := 19723, endDate := none,
    dayOfWeek := none, dayOfMonth := none, customDays := none,
    lastGeneratedDate := none, isActive := true }

/-- An every-5-days custom rule. -/
def customRuleW : Rule :=
  { sampleRule with frequency := .custom, customDays := some 5 }

/-- A monthly rule anchored on day 1, started 2024-12-31. -/
def monthlyOverflowRule : Rule :=
  { sampleRule with
      frequency := .monthly
      startDate := 20088
      dayOfMonth := some 1 }

/-- A monthly rule with a `null` anchor whose watermark sits on
2025-01-31. -/
def monthlyNullAnchorRule : Rule :=
  { sampleRule with
      frequency := .monthly
      startDate := 20088
      dayOfMonth := none
      lastGeneratedDate := some 20119 }

/-- A Monday-anchored weekly rule whose end date 2024-01-08 equals its
watermark plus a week. -/
def weeklyEndRule : Rule :=
  { sampleRule with
      frequency := .weekly
      dayOfWeek := some 1
      lastGeneratedDate := some 19723
      endDate := some 19730 }

/-- A daily rule whose watermark sits at 2024-01-04. -/
def regressRule : Rule :=
  { sampleRule with lastGeneratedDate := some 19726 }

/-- A daily rule whose watermark sits at 2024-01-01. -/
def monoRule : Rule :=
  { sampleRule with lastGeneratedDate := some 19723 }

/-- A daily rule ending 2024-01-03. -/
def endRule : Rule :=
  { sampleRule with endDate := some 19725 }

/-- The first transaction `MemStorage` creates for `endRule` at
2024-01-08. -/
def endTxn : Txn :=
  { userId := 1, description := "rent", amount := 100, date := 19724,
    categoryId := none, currency := "USD", notes := none, isIncome := 0 }

/-- An insert with every value the claimed validation should reject:
weekly `dayOfWeek = 9`, `dayOfMonth = 40`, `customDays = 0`,
`amount = -5`, `endDate` before `startDate`. -/
def insBad : InsertRecurring :=
  { userId := 1, description := "bad", amount := -5, categoryId := none,
    currency := none, notes := none, isIncome := none, frequency := .weekly,
    startDate := some 19700, endDate := some 19000, dayOfWeek := some 9,
    dayOfMonth := some 40, customDays := some 0, isActive := none,
    lastGeneratedDate := none }

/-! ### The claims -/

/-- Claim C1, code bug: catch-up completeness fails in
`DatabaseStorage.processRecurringTransactions`.  For a daily rule started
2024-01-01 and processed once on 2024-01-04, `MemStorage` creates the three
missed occurrences 01-02, 01-03 and 01-04, while `DatabaseStorage` creates
only 01-04 and advances the watermark past the two dropped days, losing
them permanently. -/
theorem claim_C1 :
    (memProcessAll 19726 [sampleRule]).1.map Txn.date = [19724, 19725, 19726] ∧
    (dbProcessAll 19726 [sampleRule]).1.map Txn.date = [19726] ∧
    (dbProcessAll 19726 [sampleRule]).2.map Rule.lastGeneratedDate
      = [some 19726] := by
  refine ⟨?_, ?_, ?_⟩ <;> decide

/-- Claim C2, corrected: backend equivalence holds only for
custom-frequency rules, and even there only for dates, counts, amounts and
watermarks — never for note contents.  On a custom-frequency rule the two
processors create the same dates and amounts, return the same count and
leave the same watermark, per rule and over a whole store. -/
theorem claim_C2 :
    (∀ now rt, rt.frequency = .custom → rt.isActive = true →
      (memProcessRule now rt).1.map Txn.date
          = (dbProcessRule now rt).1.map Txn.date ∧
      (memProcessRule now rt).1.length = (dbProcessRule now rt).1.length ∧
      (memProcessRule now rt).2.lastGeneratedDate
          = (dbProcessRule now rt).2.lastGeneratedDate ∧
      (memProcessRule now rt).1.map Txn.amount
          = (dbProcessRule now rt).1.map Txn.amount) ∧
    (∀ now rules, (∀ r ∈ rules, r.frequency = Freq.custom) →
      (memProcessAll now rules).1.map Txn.date
          = (dbProcessAll now rules).1.map Txn.date ∧
      (memProcessAll now rules).1.length = (dbProcessAll now rules).1.length ∧
      (memProcessAll now rules).2.map Rule.lastGeneratedDate
          = (dbProcessAll now rules).2.map Rule.lastGeneratedDate) :=
  ⟨fun _ _ hf ha => memdb_custom_rule hf ha,
   fun _ _ hf => memdb_custom_all hf⟩

/-- C2's witness: the per-rule agreement applied to the concrete
every-5-days rule at 2024-01-18. -/
theorem claim_C2_witness :
    (memProcessRule 19740 customRuleW).1.map Txn.date
        = (dbProcessRule 19740 customRuleW).1.map Txn.date ∧
    (memProcessRule 19740 customRuleW).1.length
        = (dbProcessRule 19740 customRuleW).1.length ∧
    (memProcessRule 19740 customRuleW).2.lastGeneratedDate
        = (dbProcessRule 19740 customRuleW).2.lastGeneratedDate ∧
    (memProcessRule 19740 customRuleW).1.map Txn.amount
        = (dbProcessRule 19740 customRuleW).1.map Txn.amount :=
  claim_C2.1 19740 customRuleW (by decide) (by decide)

/-- C2's counterexample: on a daily rule the two backends differ in count
(3 versus 1) and in note contents (`MemStorage` copies the rule's notes,
`DatabaseStorage` appends a "(Recurring)" tag). -/
theorem claim_C2_counterexample :
    (memProcessAll 19726 [sampleRule]).1.length = 3 ∧
    (dbProcessAll 19726 [sampleRule]).1.length = 1 ∧
    (memProcessAll 19726 [sampleRule]).1.map Txn.notes = [none, none, none] ∧
    (dbProcessAll 19726 [sampleRule]).1.map Txn.notes
      = [some "(Recurring)"] := by
  refine ⟨?_, ?_, ?_, ?_⟩ <;> decide

/-- Claim C3, code bug: idempotence fails in three configurations.  With no
time passing, the second `MemStorage` run on the monthly rule creates one
transaction (the `setMonth` overflow skipped 2025-02-01 on the first run);
the second `DatabaseStorage` run on the `null`-anchor monthly rule creates
one (the anchor re-derives from the moved watermark); and the second
`DatabaseStorage` run on the weekly rule with an end date creates one (the
generator re-emits the watermark itself, `lowerBound` being inclusive
there). -/
theorem claim_C3 :
    (memProcessAll 20139 ((memProcessAll 20139 [monthlyOverflowRule]).2)).1.length
        = 1 ∧
    (dbProcessAll 20176 ((dbProcessAll 20176 [monthlyNullAnchorRule]).2)).1.length
        = 1 ∧
    (dbProcessAll 19744 ((dbProcessAll 19744 [weeklyEndRule]).2)).1.length
        = 1 := by
  refine ⟨?_, ?_, ?_⟩ <;> decide

/-- Claim C4, corrected: the `MemStorage` weekly generator matches the
contract exactly (strict lower bound, inclusive upper bound, matching
day-of-week, ascending), and both generators return the three Wednesdays of
the worked example and Sundays for anchor 0 — but `DatabaseStorage`'s lower
bound is inclusive, not strict: a lower bound that itself falls on the
anchor day is returned. -/
theorem claim_C4 :
    (∀ lb ub dow x, x ∈ memGetWeeklyDates lb ub dow ↔
      lb < x ∧ x ≤ ub ∧ getDay x = dow) ∧
    (∀ lb ub t x, t ≤ 6 → (x ∈ dbGetWeeklyDates lb ub (some t) ↔
      lb ≤ x ∧ x ≤ ub ∧ getDay x = t)) ∧
    (∀ lb ub dow, (memGetWeeklyDates lb ub dow).Pairwise (· < ·)) ∧
    (∀ lb ub o, (dbGetWeeklyDates lb ub o).Pairwise (· < ·)) ∧
    memGetWeeklyDates 19723 19744 3 = [19725, 19732, 19739] ∧
    dbGetWeeklyDates 19723 19744 (some 3) = [19725, 19732, 19739] ∧
    memGetWeeklyDates 19723 19744 0 = [19729, 19736, 19743] ∧
    getDay 19729 = 0 := by
  refine ⟨fun lb ub dow x => memGetWeeklyDates_mem,
    fun lb ub t x ht => dbGetWeeklyDates_some_mem ht,
    memGetWeeklyDates_pairwise, dbGetWeeklyDates_pairwise,
    ?_, ?_, ?_, ?_⟩ <;> decide

/-- C4's witness: the `DatabaseStorage` characterisation applied at the
first Wednesday of the worked example. -/
theorem claim_C4_witness :
    19725 ∈ dbGetWeeklyDates 19723 19744 (some 3) ↔
      19723 ≤ 19725 ∧ 19725 ≤ 19744 ∧ getDay 19725 = 3 :=
  claim_C4.2.1 19723 19744 3 19725 (by decide)

/-- C4's counterexample: with the lower bound 2024-01-01 itself a Monday
and anchor Monday, `DatabaseStorage.getWeeklyDates` returns the exclusive
lower bound. -/
theorem claim_C4_counterexample :
    dbGetWeeklyDates 19723 19730 (some 1) = [19723, 19730] ∧
    getDay 19723 = 1 := by
  refine ⟨?_, ?_⟩ <;> decide

/-- Claim C5, code bug: on the worked example `monthlyOccurrences(31,
Jan 31 2024, Apr 30 2024)`, `MemStorage.getMonthlyDates` skips February
entirely — its cursor `setMonth` overflows from Jan 31 to Mar 2 — returning
only [Mar 31, Apr 30], while `DatabaseStorage.getMonthlyDates` returns the
specified [Feb 29, Mar 31, Apr 30]. -/
theorem claim_C5 :
    fromCivil 2024 0 31 = 19753 ∧ fromCivil 2024 1 29 = 19782 ∧
    fromCivil 2024 2 31 = 19813 ∧ fromCivil 2024 3 30 = 19843 ∧
    memGetMonthlyDates 19753 19843 31 = [19813, 19843] ∧
    dbGetMonthlyDates 19753 19843 31 = [19782, 19813, 19843] := by
  refine ⟨?_, ?_, ?_, ?_, ?_, ?_⟩ <;> decide

/-- Claim C6, corrected: in both implementations an empty batch leaves the
rule untouched, and a nonempty batch sets the watermark to the maximum
generated date, itself one of the created transactions' dates (it can
coincide with `now`, and over any run sequence the watermark is the
original value or a generated date).  `MemStorage`'s watermark never
regresses; `DatabaseStorage`'s never regresses provided the run time is not
before the current watermark — with a backwards clock it does regress, so
the unconditional claim needed that proviso. -/
theorem claim_C6 :
    (∀ now rt, ((memProcessRule now rt).1 = [] →
        (memProcessRule now rt).2 = rt) ∧
      ((memProcessRule now rt).1 ≠ [] →
        (memProcessRule now rt).2.lastGeneratedDate
            = some (listMax ((memProcessRule now rt).1.map Txn.date)) ∧
        listMax ((memProcessRule now rt).1.map Txn.date)
            ∈ (memProcessRule now rt).1.map Txn.date)) ∧
    (∀ now rt, ((dbStepRule now rt).1 = [] → (dbStepRule now rt).2 = rt) ∧
      ((dbStepRule now rt).1 ≠ [] →
        (dbStepRule now rt).2.lastGeneratedDate
            = some (listMax ((dbStepRule now rt).1.map Txn.date)) ∧
        listMax ((dbStepRule now rt).1.map Txn.date)
            ∈ (dbStepRule now rt).1.map Txn.date)) ∧
    (∀ now rt w w', rt.lastGeneratedDate = some w →
      (memProcessRule now rt).2.lastGeneratedDate = some w' → w ≤ w') ∧
    (∀ now rt w w', rt.lastGeneratedDate = some w → w ≤ now →
      (dbStepRule now rt).2.lastGeneratedDate = some w' → w ≤ w') ∧
    (∀ ns rt, (memRunSeqRule ns rt).2.lastGeneratedDate
        = rt.lastGeneratedDate ∨
      ∃ w, (memRunSeqRule ns rt).2.lastGeneratedDate = some w ∧
        w ∈ (memRunSeqRule ns rt).1.map Txn.date) ∧
    (∀ ns rt, (dbRunSeqRule ns rt).2.lastGeneratedDate
        = rt.lastGeneratedDate ∨
      ∃ w, (dbRunSeqRule ns rt).2.lastGeneratedDate = some w ∧
        w ∈ (dbRunSeqRule ns rt).1.map Txn.date) :=
  ⟨memProcessRule_watermark, dbStepRule_watermark,
   fun _ _ _ _ hw hw' => memProcessRule_mono hw hw',
   fun _ _ _ _ hw hn hw' => dbStepRule_mono hw hn hw',
   memRunSeqRule_watermark, dbRunSeqRule_watermark⟩

/-- C6's witness: the `DatabaseStorage` non-regression component applied to
the concrete watermarked daily rule run three days later. -/
theorem claim_C6_witness :
    (dbStepRule 19726 monoRule).2.lastGeneratedDate = some 19726 ∧
    (19723 : Nat) ≤ 19726 :=
  ⟨by decide,
   claim_C6.2.2.2.1 19726 monoRule 19723 19726 (by decide) (by decide)
     (by decide)⟩

/-- C6's counterexample: run with the clock three days *behind* the
watermark, `DatabaseStorage`'s daily arm regenerates `[now]` and the
watermark regresses from 2024-01-04 to 2024-01-02. -/
theorem claim_C6_counterexample :
    regressRule.lastGeneratedDate = some 19726 ∧
    (dbProcessAll 19720 [regressRule]).2.map Rule.lastGeneratedDate
      = [some 19720] ∧
    19720 < 19726 := by
  refine ⟨?_, ?_, ?_⟩ <;> decide

/-- Claim C7, confirmed: a rule with an end date never yields a
transaction dated after it — in either implementation, for a single run at
any current date and over any sequence of runs. -/
theorem claim_C7 :
    (∀ now rt e, rt.endDate = some e →
      ∀ t ∈ (memProcessRule now rt).1, t.date ≤ e) ∧
    (∀ now rt e, rt.endDate = some e →
      ∀ t ∈ (dbStepRule now rt).1, t.date ≤ e) ∧
    (∀ ns rt e, rt.endDate = some e →
      ∀ t ∈ (memRunSeqRule ns rt).1, t.date ≤ e) ∧
    (∀ ns rt e, rt.endDate = some e →
      ∀ t ∈ (dbRunSeqRule ns rt).1, t.date ≤ e) :=
  ⟨fun _ _ _ he => memProcessRule_endDate he,
   fun _ _ _ he => dbStepRule_endDate he,
   fun _ _ _ he => memRunSeqRule_endDate he,
   fun _ _ _ he => dbRunSeqRule_endDate he⟩

/-- C7's witness: applied to the rule ending 2024-01-03 processed on
2024-01-08 and its first created transaction. -/
theorem claim_C7_witness :
    endRule.endDate = some 19725 ∧ endTxn.date ≤ 19725 :=
  ⟨by decide, claim_C7.1 19730 endRule 19725 (by decide) endTxn (by decide)⟩

/-- Claim C8, corrected: no layer rejects anything.  The route handler
forwards the parsed body, the schema adds no refinement, and
`createRecurringTransaction` persists `dayOfWeek`, `dayOfMonth`,
`customDays`, `amount`, `endDate` and `frequency` verbatim for every
input — there is no `ValidationError` path for the claimed checks. -/
theorem claim_C8 :
    ∀ nextId now ins,
      (memCreateRecurringTransaction nextId now ins).dayOfWeek
          = ins.dayOfWeek ∧
      (memCreateRecurringTransaction nextId now ins).dayOfMonth
          = ins.dayOfMonth ∧
      (memCreateRecurringTransaction nextId now ins).customDays
          = ins.customDays ∧
      (memCreateRecurringTransaction nextId now ins).amount = ins.amount ∧
      (memCreateRecurringTransaction nextId now ins).endDate = ins.endDate ∧
      (memCreateRecurringTransaction nextId now ins).frequency
          = ins.frequency :=
  fun _ _ _ => ⟨rfl, rfl, rfl, rfl, rfl, rfl⟩

/-- C8's counterexample: a weekly insert with `dayOfWeek = 9`,
`dayOfMonth = 40`, `customDays = 0`, `amount = -5` and `endDate` before
`startDate` is persisted unchanged. -/
theorem claim_C8_counterexample :
    (memCreateRecurringTransaction 1 19723 insBad).frequency = .weekly ∧
    (memCreateRecurringTransaction 1 19723 insBad).dayOfWeek = some 9 ∧
    (memCreateRecurringTransaction 1 19723 insBad).dayOfMonth = some 40 ∧
    (memCreateRecurringTransaction 1 19723 insBad).customDays = some 0 ∧
    (memCreateRecurringTransaction 1 19723 insBad).amount = -5 ∧
    (memCreateRecurringTransaction 1 19723 insBad).endDate = some 19000 ∧
    (memCreateRecurringTransaction 1 19723 insBad).startDate = 19700 :=
  ⟨rfl, rfl, rfl, rfl, rfl, rfl, rfl⟩

/-- Claim C9, confirmed: under the preconditions (`customDays ≥ 1`,
day-of-week anchor in `[0,6]`), every generator of both implementations
returns a strictly increasing (hence duplicate-free) list for all bounds,
and the two source `while` loops terminate: the day-alignment loop of
`DatabaseStorage.getWeeklyDates` stabilises within 7 steps and the shared
`getCustomDates` stepping loop stabilises at its nominal fuel. -/
theorem claim_C9 :
    (∀ lb ub dow, (memGetWeeklyDates lb ub dow).Pairwise (· < ·)) ∧
    (∀ lb ub o, (dbGetWeeklyDates lb ub o).Pairwise (· < ·)) ∧
    (∀ lb ub a, (memGetMonthlyDates lb ub a).Pairwise (· < ·)) ∧
    (∀ lb ub a, (dbGetMonthlyDates lb ub a).Pairwise (· < ·)) ∧
    (∀ lb ub step, 1 ≤ step → (memGetCustomDates lb ub step).Pairwise (· < ·)) ∧
    (∀ lb ub step, 1 ≤ step → (dbGetCustomDates lb ub step).Pairwise (· < ·)) ∧
    (∀ t cur extra, t ≤ 6 → dbAlignAux t (7 + extra) cur = dbAlignAux t 7 cur) ∧
    (∀ lb ub step extra, 1 ≤ step →
      customDatesAux ub step (ub + 1 - (lb + step) + extra) (lb + step)
        = memGetCustomDates lb ub step) := by
  refine ⟨memGetWeeklyDates_pairwise, dbGetWeeklyDates_pairwise,
    ?_, ?_, ?_, ?_, ?_, ?_⟩
  · intro lb ub a
    unfold memGetMonthlyDates
    exact memMonthlyAux_pairwise _ _
  · intro lb ub a
    unfold dbGetMonthlyDates
    exact dbMonthlyAux_pairwise _ _
  · intro lb ub step hs
    unfold memGetCustomDates
    exact customDatesAux_pairwise hs _ _
  · intro lb ub step hs
    unfold dbGetCustomDates
    exact customDatesAux_pairwise hs _ _
  · intro t cur extra ht
    exact dbAlignAux_stable t cur ht extra
  · intro lb ub step extra hs
    exact customDatesAux_stable hs (ub + 1 - (lb + step)) extra (lb + step)
      (by omega)

/-- C9's witness: strict increase of the shared stepping generator at step
5 on a concrete window. -/
theorem claim_C9_witness :
    (1 : Nat) ≤ 5 ∧ (memGetCustomDates 19723 19744 5).Pairwise (· < ·) :=
  ⟨by decide, claim_C9.2.2.2.2.1 19723 19744 5 (by decide)⟩

/-- Claim C10, confirmed: whatever the caller supplies,
`MemStorage.createRecurringTransaction` stores the rule active, with no
watermark, and with `startDate` defaulting to the creation time exactly
when absent. -/
theorem claim_C10 :
    ∀ nextId now ins,
      (memCreateRecurringTransaction nextId now ins).isActive = true ∧
      (memCreateRecurringTransaction nextId now ins).lastGeneratedDate
          = none ∧
      (memCreateRecurringTransaction nextId now ins).startDate
          = ins.startDate.getD now :=
  fun _ _ _ => ⟨rfl, rfl, rfl⟩

end CashCoach
